import Mathlib

/-!
# Verification of the SkillSaw-II extraction pipeline

Shallow embedding of the core of the document/directory extraction pipeline:

* `entra_heirarchy3.py` / `entra_heirarchy.py` — adaptive HTTP limiter,
  managers-file parsing, organisational hierarchy builder;
* `extract-users-db_prod.py` (and the matching parts of
  `extract-prod-domino-lakehouse.py`) — folder-name sanitisation, the
  content-addressed store, the item filter, the document upsert pipeline
  into the EAV SQL schema, and the per-view checkpointed batch loop.

External primitives that the scripts call but do not define (SHA-256,
Python's ISO datetime parser) are passed in as explicit function
parameters, so every definition stays executable and the theorems
quantify over the primitive.
-/

namespace SkillSaw

/-! ## Adaptive limiter (`AdaptiveLimiter`, entra_heirarchy3.py lines 109-128)

Sleep durations are rationals (Python floats here only ever take values
of the form `0.35 + k/4`, which rationals represent exactly). -/

def MIN_PAGE_SIZE : Nat := 25

def MAX_CONSEC_SERVICE_ERRORS : Nat := 6

structure AdaptiveLimiter where
  consec_service_errors : Nat
  page_sleep : ℚ
  page_size : Nat
deriving DecidableEq, Repr

/-- `note_success`: `self.consec_service_errors = max(0, self.consec_service_errors - 1)`.
Truncated `Nat` subtraction is exactly `max(0, c - 1)`. -/
def AdaptiveLimiter.note_success (st : AdaptiveLimiter) : AdaptiveLimiter :=
  { st with consec_service_errors := st.consec_service_errors - 1 }

/-- `note_service_error` (entra_heirarchy3.py lines 118-128): increment the
streak counter; on a streak of 3 or 4 raise `page_sleep` by 0.25 (cap 2.0);
on a streak of ≥ 6 halve `page_size` (floor `MIN_PAGE_SIZE`), raise
`page_sleep` by 0.5 (cap 3.0) and reset the counter.  The `time.sleep(nap)`
call has no effect on the limiter state and is not modelled. -/
def AdaptiveLimiter.note_service_error (st : AdaptiveLimiter) : AdaptiveLimiter :=
  let c := st.consec_service_errors + 1
  let sleep1 := if c = 3 ∨ c = 4 then min (st.page_sleep + 1/4) 2 else st.page_sleep
  if MAX_CONSEC_SERVICE_ERRORS ≤ c then
    { consec_service_errors := 0
      page_size := max MIN_PAGE_SIZE (st.page_size / 2)
      page_sleep := min (sleep1 + 1/2) 3 }
  else
    { st with consec_service_errors := c, page_sleep := sleep1 }

/-! ## Folder-name sanitisation (`sanitize_folder_name`,
extract-users-db_prod.py lines 116-120)

```python
def sanitize_folder_name(name, max_len=100):
    if not name or not name.strip(): return "Unnamed"
    name = re.sub(r'[<>:"/\\|?*]', '_', name)
    name = re.sub(r'[\s_]+', '_', name)
    return name[:max_len].strip('_')
```
`Char.isWhitespace` models the `\s` character class and the default
`str.strip()` set. -/

def FORBIDDEN_CHARS : List Char := ['<', '>', ':', '"', '/', '\\', '|', '?', '*']

/-- One character of `re.sub(r'[<>:"/\\|?*]', '_', name)`. -/
def replaceForbidden (c : Char) : Char := if c ∈ FORBIDDEN_CHARS then '_' else c

/-- Is the character collapsed by `re.sub(r'[\s_]+', '_', name)`? -/
def isCollapsible (c : Char) : Bool := c.isWhitespace || c = '_'

/-- `re.sub(r'[\s_]+', '_', name)`: every maximal run of whitespace or
underscores becomes a single underscore.  `prev` records whether the
previous character belonged to such a run. -/
def collapseRunsAux : Bool → List Char → List Char
  | _, [] => []
  | prev, c :: rest =>
    if isCollapsible c then
      if prev then collapseRunsAux true rest else '_' :: collapseRunsAux true rest
    else c :: collapseRunsAux false rest

/-- `s.strip('_')` on a character list: drop leading and trailing underscores. -/
def stripUnderscores (l : List Char) : List Char :=
  ((l.dropWhile (· = '_')).reverse.dropWhile (· = '_')).reverse

/-- Python `str.strip()`: drop leading and trailing whitespace. -/
def py_strip (s : String) : String :=
  String.mk (((s.data.dropWhile Char.isWhitespace).reverse.dropWhile Char.isWhitespace).reverse)

/-- Python `str.lower()` / SQL `LOWER(%s)`: lower-case every character. -/
def py_lower (s : String) : String := String.mk (s.data.map Char.toLower)

/-- `sanitize_folder_name` (extract-users-db_prod.py lines 116-120). -/
def sanitize_folder_name (name : String) (max_len : Nat := 100) : String :=
  if name = "" ∨ py_strip name = "" then "Unnamed"
  else
    let l1 := name.data.map replaceForbidden
    let l2 := collapseRunsAux false l1
    String.mk (stripUnderscores (l2.take max_len))

/-! ## Content-addressed store (`cas_store`,
extract-users-db_prod.py lines 158-168)

The filesystem below `CAS_ROOT` is modelled as the list of relative
paths that exist; `shutil.copy2` + `tmp.replace(dest)` materialises the
destination path.  SHA-256 is a parameter (`sha256_file` streams the
file's bytes; here the file's content is the byte list itself). -/

def hexDigitChar (n : Nat) : Char :=
  if n < 10 then Char.ofNat ('0'.toNat + n) else Char.ofNat ('a'.toNat + (n - 10))

/-- Lowercase hex rendering of one byte, as produced by `bytes.hex()`. -/
def hexByte (b : Nat) : List Char := [hexDigitChar (b / 16 % 16), hexDigitChar (b % 16)]

/-- `digest.hex()` for a digest given as a byte list. -/
def hexOfDigest (d : List Nat) : String := String.mk (d.map hexByte).flatten

/-- `hexs[0:2] / hexs[2:4] / (hexs + ".bin")` rendered with forward slashes,
as `str(rel).replace("\\", "/")` produces. -/
def cas_relpath (hexs : String) : String :=
  String.mk (hexs.data.take 2) ++ "/" ++ String.mk ((hexs.data.drop 2).take 2) ++ "/"
    ++ hexs ++ ".bin"

structure CasResult where
  digest : List Nat
  relpath : String
  size : Nat
  /-- whether the `shutil.copy2` / `tmp.replace(dest)` branch ran -/
  copied : Bool
  store : List String
deriving DecidableEq, Repr

/-- `cas_store` (extract-users-db_prod.py lines 158-168): hash the content,
derive the sharded relative path, copy only when the destination does not
already exist. -/
def cas_store (sha256_file : List Nat → List Nat) (content : List Nat)
    (store : List String) : CasResult :=
  let digest := sha256_file content
  let hexs := hexOfDigest digest
  let rel := cas_relpath hexs
  if rel ∈ store then
    { digest := digest, relpath := rel, size := content.length, copied := false, store := store }
  else
    { digest := digest, relpath := rel, size := content.length, copied := true,
      store := store ++ [rel] }

/-! ## Association-list primitives

Python dicts (insertion-ordered, overwriting keeps the original slot) and
SQL upserts (`ON DUPLICATE KEY UPDATE` on a keyed table) share the same
observable behaviour; both are modelled by `upsertA` on an association
list. -/

def lookupA {κ ν : Type} [DecidableEq κ] (k : κ) : List (κ × ν) → Option ν
  | [] => none
  | (k', v) :: rest => if k' = k then some v else lookupA k rest

def containsA {κ ν : Type} [DecidableEq κ] (k : κ) (l : List (κ × ν)) : Bool :=
  (lookupA k l).isSome

def replaceA {κ ν : Type} [DecidableEq κ] (k : κ) (v : ν) : List (κ × ν) → List (κ × ν)
  | [] => []
  | (k', v') :: rest => if k' = k then (k', v) :: rest else (k', v') :: replaceA k v rest

def upsertA {κ ν : Type} [DecidableEq κ] (k : κ) (v : ν) (l : List (κ × ν)) : List (κ × ν) :=
  if containsA k l then replaceA k v l else l ++ [(k, v)]

/-! ## Managers file (`load_managers_file`, entra_heirarchy3.py lines 187-223)

A managers file is JSON: either an object or an array of objects.  The
values that the parser meets are modelled by `MVal`: a string, an array
of strings, or `null` (nested objects or numbers would make the Python
crash or are out of the supported shapes).  Iterating a Python string
yields its characters; `None or []` yields `[]`. -/

inductive MVal
  | str (s : String)
  | list (l : List String)
  | null
deriving DecidableEq, Repr

def MVal.isList : MVal → Bool
  | .list _ => true
  | _ => false

/-- `for k in (kids or [])`: elements of a list, characters of a string,
nothing for `None`. -/
def MVal.elems : MVal → List String
  | .str s => s.data.map (fun c => String.mk [c])
  | .list l => l
  | .null => []

/-- The single-quote character, kept out of source text. -/
def squote : String := String.mk [Char.ofNat 39]

/-- Python `str(...)` of a list of strings, e.g. `str(["a"])`. -/
def pyStrOfList (l : List String) : String :=
  "[" ++ String.intercalate ", " (l.map (fun s => squote ++ s ++ squote)) ++ "]"

/-- `str(m) if m is not None else None`. -/
def MVal.asOptStr : MVal → Option String
  | .str s => some s
  | .list l => some (pyStrOfList l)
  | .null => none

/-- Python `str(...)` of an `MVal` (`str(None) = "None"`). -/
def MVal.pyStr : MVal → String
  | .str s => s
  | .list l => pyStrOfList l
  | .null => "None"

/-- A JSON object appearing as an array element: its fields. -/
def MRow : Type := List (String × MVal)

/-- `isinstance(row.get("reports"), list)`. -/
def reportsIsList (row : MRow) : Bool :=
  match lookupA "reports" row with
  | some (.list _) => true
  | _ => false

def reportsOf (row : MRow) : List String :=
  match lookupA "reports" row with
  | some (.list l) => l
  | _ => []

inductive ManagersJson
  | dict (entries : List (String × MVal))
  | list (rows : List MRow)

/-- `load_managers_file` (entra_heirarchy3.py lines 187-223), minus the file
I/O: turn the parsed JSON into the `child -> manager` dict. -/
def load_managers_file : ManagersJson → List (String × Option String)
  | .dict entries =>
    let any_list := entries.any (fun e => e.2.isList)
    if any_list then
      entries.foldl (fun acc e =>
        (e.2.elems).foldl (fun a k => upsertA k (some e.1) a) acc) []
    else
      entries.foldl (fun acc e => upsertA e.1 e.2.asOptStr acc) []
  | .list rows =>
    rows.foldl (fun acc row =>
      if containsA "managerId" row ∧ reportsIsList row then
        let m := (lookupA "managerId" row).getD .null
        (reportsOf row).foldl (fun a k => upsertA k m.asOptStr a) acc
      else if containsA "id" row ∧ containsA "managerId" row then
        let idv := (lookupA "id" row).getD .null
        let m := (lookupA "managerId" row).getD .null
        upsertA idv.pyStr m.asOptStr acc
      else acc) []

/-! ### Claim-side description of `load_managers_file`

Written from the claim's words: the shape of a dict input is detected
globally (if any value is a list the whole dict is manager-to-children,
otherwise it is child-to-manager) and each entry/row contributes a list
of `(child, manager)` pairs which are merged left to right. -/

inductive DictShape
  | managerToChildren
  | childToManager

def detectShape (entries : List (String × MVal)) : DictShape :=
  if entries.any (fun e => e.2.isList) then .managerToChildren else .childToManager

/-- Pairs contributed by one dict entry under a globally chosen shape. -/
def interpretEntry : DictShape → String × MVal → List (String × Option String)
  | .managerToChildren, (m, v) => v.elems.map (fun k => (k, some m))
  | .childToManager, (c, v) => [(c, v.asOptStr)]

/-- Pairs contributed by one array row: a row carrying `managerId` and a
list-valued `reports` maps every report to that manager; otherwise a row
carrying `id` and `managerId` maps the id to the manager. -/
def interpretRow (row : MRow) : List (String × Option String) :=
  if containsA "managerId" row ∧ reportsIsList row then
    (reportsOf row).map (fun k => (k, ((lookupA "managerId" row).getD .null).asOptStr))
  else if containsA "id" row ∧ containsA "managerId" row then
    [(((lookupA "id" row).getD .null).pyStr, ((lookupA "managerId" row).getD .null).asOptStr)]
  else []

def mergePairs (acc : List (String × Option String)) (ps : List (String × Option String)) :
    List (String × Option String) :=
  ps.foldl (fun a p => upsertA p.1 p.2 a) acc

/-- The claim-side managers-file semantics. -/
def load_managers_spec : ManagersJson → List (String × Option String)
  | .dict entries =>
    entries.foldl (fun acc e => mergePairs acc (interpretEntry (detectShape entries) e)) []
  | .list rows =>
    rows.foldl (fun acc row => mergePairs acc (interpretRow row)) []

/-! ## Hierarchy builder (`build_hierarchy`, entra_heirarchy3.py lines 319-359,
identically entra_heirarchy.py lines 283-306)

Only `id` and `displayName` take part in the structure of the forest; the
other user fields ride along unchanged in the source and are omitted.
The Python builds the forest by mutating shared dicts; the model gives
the parent relation (`parentIdOf`), the per-node sorted children
(`childrenUsers`), the roots in user order (`rootsOf`), and materialises
the trees with fuel `users.length` (sufficient whenever the manager
relation is acyclic, which the theorems hypothesise; a cyclic input
makes the source build an unrepresentable cyclic object graph). -/

structure GUser where
  id : String
  displayName : Option String
deriving DecidableEq, Repr

def idsOf (users : List GUser) : List String := users.map GUser.id

/-- `manager_map.get(uid)`: `None` both for an absent key and a `null` value. -/
def mgrIdOf (mm : List (String × Option String)) (uid : String) : Option String :=
  (lookupA uid mm).join

/-- The parent edge chosen by the loop
`if m and m in nodes: nodes[m]["reports"].append(u) else: roots.append(u)`:
a user hangs under `m` exactly when its managerId is truthy (non-`None`,
non-empty) and is the id of a loaded user. -/
def parentIdOf (users : List GUser) (mm : List (String × Option String))
    (uid : String) : Option String :=
  if uid ∈ idsOf users then
    match mgrIdOf mm uid with
    | some m => if m ≠ "" ∧ m ∈ idsOf users then some m else none
    | none => none
  else none

/-- `(x.get("displayName") or "").lower()`, the sort key of `sort_recursive`. -/
def dispKey (u : GUser) : String := (u.displayName.getD "").toLower

def insertByKey {α : Type} (key : α → String) (a : α) : List α → List α
  | [] => [a]
  | b :: l => if key a ≤ key b then a :: b :: l else b :: insertByKey key a l

/-- Stable sort by a string key (the observable behaviour of Python's
`list.sort(key=...)`). -/
def sortByKey {α : Type} (key : α → String) : List α → List α
  | [] => []
  | a :: l => insertByKey key a (sortByKey key l)

/-- Adjacent-pairs sortedness check for a string key. -/
def isSortedByKey {α : Type} (key : α → String) : List α → Bool
  | [] => true
  | [_] => true
  | a :: b :: l => decide (key a ≤ key b) && isSortedByKey key (b :: l)

/-- The `reports` list of the node with id `uid`, after `sort_recursive`:
the users whose parent edge points at `uid`, in user order, stably sorted
by lowercased display name. -/
def childrenUsers (users : List GUser) (mm : List (String × Option String))
    (uid : String) : List GUser :=
  sortByKey dispKey (users.filter (fun u => parentIdOf users mm u.id = some uid))

/-- `roots` in user order. -/
def rootsOf (users : List GUser) (mm : List (String × Option String)) : List GUser :=
  users.filter (fun u => parentIdOf users mm u.id = none)

inductive OrgTree
  | node (user : GUser) (reports : List OrgTree)

def OrgTree.user : OrgTree → GUser
  | .node u _ => u

/-- Materialise the tree under `u` down to depth `fuel`. -/
def mkTree (users : List GUser) (mm : List (String × Option String)) :
    Nat → GUser → OrgTree
  | 0, u => .node u []
  | fuel + 1, u => .node u ((childrenUsers users mm u.id).map (mkTree users mm fuel))

/-- `build_hierarchy` (entra_heirarchy3.py lines 319-359): the returned
forest (`roots` with their nested `reports`). -/
def build_hierarchy (users : List GUser) (mm : List (String × Option String)) :
    List OrgTree :=
  (rootsOf users mm).map (mkTree users mm users.length)

mutual

/-- Number of occurrences of the id `x` in a tree. -/
def OrgTree.countId (x : String) : OrgTree → Nat
  | .node u reports => (if u.id = x then 1 else 0) + countIdList x reports

def countIdList (x : String) : List OrgTree → Nat
  | [] => 0
  | t :: ts => OrgTree.countId x t + countIdList x ts

end

mutual

/-- Every node of the tree has its `reports` sorted by the display-name key. -/
def OrgTree.allSorted : OrgTree → Bool
  | .node _ reports => isSortedByKey dispKey (reports.map OrgTree.user) && allSortedList reports

def allSortedList : List OrgTree → Bool
  | [] => true
  | t :: ts => t.allSorted && allSortedList ts

end

/-- `j`-fold iteration of the parent edge starting from `x`. -/
def ancIter (users : List GUser) (mm : List (String × Option String)) :
    Nat → String → Option String
  | 0, x => some x
  | j + 1, x => (ancIter users mm j x).bind (parentIdOf users mm)

/-! ## The SQL sink (extract-users-db_prod.py)

Tables are modelled on their observable SQL semantics: keyed tables
(`documents`, `doc_item_values`) as association lists under `upsertA`
(`ON DUPLICATE KEY UPDATE`), append-only tables (`items`, `item_values`,
`attachments`) as lists with `AUTO_INCREMENT` counters starting at 1
(MySQL ids are never 0, which matters because the Python truthiness
tests `if existing:` / `if att_id:` treat 0 like `None`).

External primitives live in `Ext`:
* `shaS`    — `hashlib.sha256(payload.encode("utf-8")).digest()`;
* `parseDT` — `datetime.fromisoformat` composed with the UTC
  normalisation of `as_dt`, on string inputs (abstract timestamps);
* `fmtDT`   — `dt.strftime("%Y-%m-%d %H:%M:%S")` / `str(dt)` rendering;
* `dtStore` — the value the `v_datetime DATETIME NULL` column (schema
  line 463, fractional-seconds precision 0) actually retains when a
  timestamp is INSERTed: MySQL rounds sub-second parts away, so
  `dtStore` is the identity exactly on whole-second instants.  The
  driver serialises the unrounded Python datetime, so SELECT parameters
  are NOT rounded.
-/

structure Ext where
  shaS : String → List Nat
  parseDT : String → Option Nat
  fmtDT : Nat → String
  dtStore : Nat → Nat

/-- A value a Notes item can carry, after the COM bridge: Python
`bool`, `int`/`float` (modelled by `Int`; only equality matters here),
`datetime` (abstract normalised timestamp), `str`, or `None`. -/
inductive PyVal
  | bool (b : Bool)
  | num (n : Int)
  | dt (d : Nat)
  | str (s : String)
  | noneV
deriving DecidableEq, Repr

/-- Python `str(...)` of a `PyVal`. -/
def PyVal.render (ext : Ext) : PyVal → String
  | .bool b => if b then "True" else "False"
  | .num n => toString n
  | .dt d => ext.fmtDT d
  | .str s => s
  | .noneV => "None"

/-- `as_dt` (extract-users-db_prod.py lines 130-146) on an item value:
a datetime passes through (UTC-normalised into the abstract timestamp);
a string goes through `fromisoformat`; `bool`/`int`/`float`/`None` all
make `fromisoformat(str(val))` raise, yielding `None` (`"True"`,
`"5"`, `"None"` are never valid ISO dates). -/
def as_dt (ext : Ext) : PyVal → Option Nat
  | .dt d => some d
  | .str s => ext.parseDT s
  | _ => none

/-- `safe_str` (lines 122-128): `None` passes through, anything else is
`str(...)` truncated to `max_len`. -/
def safe_str (ext : Ext) (val : Option PyVal) (max_len : Nat) : Option String :=
  match val with
  | none => none
  | some v => some ((v.render ext).take max_len)

structure ItemRow where
  id : Nat
  name : String
  notes_filter : Option Int
deriving DecidableEq, Repr

structure DocRow where
  unid : String
  source_id : Nat
  note_id : Option String
  form : Option String
  subject : Option String
  author : Option String
  created_at : Option Nat
  modified_at : Option Nat
  has_attachments : Nat
  text_hash : Option (List Nat)
  text_body : String
  doc_size_bytes : Option Nat
deriving DecidableEq, Repr

structure IVRow where
  id : Nat
  item_id : Nat
  val_kind : String
  val_hash : List Nat
  v_string : Option String
  v_text : Option String
  v_number : Option Int
  v_datetime : Option Nat
  v_bool : Option Nat
  v_bytes : Option (List Nat)
  attachment_id : Option Nat
deriving DecidableEq, Repr

structure AttRow where
  id : Nat
  unid : String
  item_name : Option String
  kind : String
  filename : Option String
  mime_type : Option String
  size_bytes : Option Nat
  sha256 : List Nat
  storage_path : String
  created_at : Option Nat
deriving DecidableEq, Repr

/-- The relational store.  `doc_item_values` is keyed by
`(unid, item_id, val_order)` and valued `(item_value_id, is_summary)`. -/
structure Store where
  documents : List (String × DocRow)
  items : List ItemRow
  item_values : List IVRow
  doc_item_values : List ((String × Nat × Nat) × (Nat × Nat))
  attachments : List AttRow
  next_item_id : Nat
  next_iv_id : Nat
  next_att_id : Nat
deriving DecidableEq, Repr

def Store.empty : Store :=
  { documents := [], items := [], item_values := [], doc_item_values := [],
    attachments := [], next_item_id := 1, next_iv_id := 1, next_att_id := 1 }

/-- `SELECT id FROM items WHERE name_lc=LOWER(%s)`. -/
def findItem (name : String) (st : Store) : Option ItemRow :=
  st.items.find? (fun r => py_lower r.name = py_lower name)

/-- `get_item_id` (lines 614-619): look the name up case-insensitively,
insert it (with `notes_filter` NULL) when absent. -/
def get_item_id (name : String) (st : Store) : Nat × Store :=
  match findItem name st with
  | some r => (r.id, st)
  | none =>
    (st.next_item_id,
     { st with items := st.items ++ [{ id := st.next_item_id, name := name, notes_filter := none }],
               next_item_id := st.next_item_id + 1 })

/-- `should_store_item` (lines 622-638): absent from the catalog defaults
to store; present stores only when `int(notes_filter) == 1`
(`int(None)` raises, so a NULL filter means skip). -/
def should_store_item (name : String) (st : Store) : Bool :=
  match findItem name st with
  | none => true
  | some r =>
    match r.notes_filter with
    | some nf => decide (nf = 1)
    | none => false

/-- `upsert_document` (lines 640-660): `INSERT ... ON DUPLICATE KEY UPDATE`
on the primary key `unid`, every column taking the new value. -/
def upsert_document (row : DocRow) (st : Store) : Store :=
  { st with documents := upsertA row.unid row st.documents }

/-- `_select_existing_item_value` (lines 664-678): lookup by `item_id`,
`val_kind` and null-safe (`<=>`) equality on every typed column and
`attachment_id`; `v_bytes` is compared against NULL.  The `v_datetime`
comparison uses the UNROUNDED parameter as serialised by the driver,
while the stored column value went through `dtStore` on INSERT. -/
def select_existing_item_value (item_id : Nat) (kind : String)
    (s t : Option String) (n : Option Int) (dt : Option Nat) (b : Option Nat)
    (att_id : Option Nat) (st : Store) : Option Nat :=
  (st.item_values.find? (fun r =>
    r.item_id = item_id ∧ r.val_kind = kind ∧ r.v_string = s ∧ r.v_text = t ∧
    r.v_number = n ∧ r.v_datetime = dt ∧ r.v_bool = b ∧ r.v_bytes = none ∧
    r.attachment_id = att_id)).map IVRow.id

/-- `_compute_val_hash` (lines 680-690): SHA-256 of the 0x1F-joined
rendering of the typed fields. -/
def compute_val_hash (ext : Ext) (item_id : Nat) (kind : String)
    (s t : Option String) (n : Option Int) (dt : Option Nat) (b : Option Nat)
    (att_id : Option Nat) : List Nat :=
  let us := String.mk [Char.ofNat 31]
  let noneStr : Option String → String := fun x => x.getD ""
  ext.shaS (String.intercalate us
    [toString item_id, kind, noneStr s, noneStr t,
     (n.map toString).getD "", (dt.map ext.fmtDT).getD "",
     (b.map toString).getD "", (att_id.map toString).getD ""])

/-- The INSERT arm of `get_or_create_item_value` (lines 700-706):
`v_bytes` is inserted as NULL.  The `v_datetime` column is DATETIME of
precision 0, so the row retains `dtStore` of the supplied timestamp,
not the timestamp itself. -/
def insert_item_value_row (ext : Ext) (item_id : Nat) (kind : String)
    (s t : Option String) (n : Option Int) (dt : Option Nat) (b : Option Nat)
    (att_id : Option Nat) (st : Store) : Nat × Store :=
  let row : IVRow :=
    { id := st.next_iv_id, item_id := item_id, val_kind := kind,
      val_hash := compute_val_hash ext item_id kind s t n dt b att_id,
      v_string := s, v_text := t, v_number := n, v_datetime := dt.map ext.dtStore,
      v_bool := b, v_bytes := none, attachment_id := att_id }
  (st.next_iv_id, { st with item_values := st.item_values ++ [row],
                            next_iv_id := st.next_iv_id + 1 })

/-- `get_or_create_item_value` (lines 692-706).  The Python guard
`if existing:` is truthy, so an id of 0 would fall through to the
insert; MySQL auto-increment ids start at 1. -/
def get_or_create_item_value (ext : Ext) (item_id : Nat) (kind : String)
    (s t : Option String) (n : Option Int) (dt : Option Nat) (b : Option Nat)
    (att_id : Option Nat) (st : Store) : Nat × Store :=
  match select_existing_item_value item_id kind s t n dt b att_id st with
  | some i =>
    if i ≠ 0 then (i, st)
    else insert_item_value_row ext item_id kind s t n dt b att_id st
  | none => insert_item_value_row ext item_id kind s t n dt b att_id st

/-- `link_doc_item_value` (lines 708-716): upsert on the primary key
`(unid, item_id, val_order)`. -/
def link_doc_item_value (unid : String) (item_id order_idx iv_id is_summary : Nat)
    (st : Store) : Store :=
  { st with doc_item_values :=
      upsertA (unid, item_id, order_idx) (iv_id, is_summary) st.doc_item_values }

/-- `insert_item_value` (lines 718-724). -/
def insert_item_value (ext : Ext) (unid : String) (item_id order_idx : Nat)
    (kind : String) (s t : Option String) (n : Option Int) (dt : Option Nat)
    (b : Option Nat) (att_id : Option Nat) (is_summary : Nat) (st : Store) : Store :=
  let (iv_id, st1) := get_or_create_item_value ext item_id kind s t n dt b att_id st
  link_doc_item_value unid item_id order_idx iv_id is_summary st1

/-- Attachment metadata as produced by
`extract_embedded_attachments_from_doc` (lines 993-1025): `filename` is
always a string (`Name or "Unnamed_<idx>"`), `mime_type` always NULL. -/
structure AttMeta where
  item_name : Option String
  kind : String
  filename : String
  mime_type : Option String
  size_bytes : Nat
  sha256 : List Nat
  storage_path : String
deriving DecidableEq, Repr

/-- `insert_attachment` (lines 745-755): `INSERT IGNORE` against the
unique key `uk_file (sha256, unid, filename)` — since `filename` is a
non-NULL string here the key always takes effect — followed by
`SELECT id ... WHERE unid=%s AND filename<=>%s AND sha256=%s`.
`created_at` is `NOW()`, passed in as `now`. -/
def insert_attachment (now : Nat) (unid : String) (meta : AttMeta) (st : Store) :
    Option Nat × Store :=
  let dup := st.attachments.any (fun r =>
    r.sha256 = meta.sha256 ∧ r.unid = unid ∧ r.filename = some meta.filename)
  let st' :=
    if dup then st
    else { st with
      attachments := st.attachments ++
        [{ id := st.next_att_id, unid := unid, item_name := meta.item_name,
           kind := meta.kind, filename := some meta.filename,
           mime_type := meta.mime_type, size_bytes := some meta.size_bytes,
           sha256 := meta.sha256, storage_path := meta.storage_path,
           created_at := some now }],
      next_att_id := st.next_att_id + 1 }
  ((st'.attachments.find? (fun r =>
      r.unid = unid ∧ r.filename = some meta.filename ∧ r.sha256 = meta.sha256)).map AttRow.id,
   st')

/-- A document item as seen over the COM bridge: its name, the outcome
of the rich-text heuristic (`EmbeddedObjects`/`AppendText`/`Type == 1`),
its flattened rich text, and its `Values` (absent attribute → `none`;
a scalar `Values` is normalised to a singleton list, which the script
observes identically). -/
structure NItem where
  name : String
  rich : Bool
  richText : String
  values : Option (List PyVal)
deriving DecidableEq, Repr

structure NotesDoc where
  unid : String
  noteID : String
  created : Option Nat
  modified : Option Nat
  items : List NItem
deriving DecidableEq, Repr

/-- One iteration of the value loop of `coerce_insert_item_values`
(lines 972-991): `bool` first, then `int`/`float`, then `datetime`
(a native datetime always passes `as_dt`; a string goes through the ISO
parser), `None` becomes `'unknown'`, and remaining strings store as
`'string'`/`'richtext'` when at most 1024 characters, else split into
`v_string` prefix and full `v_text`. -/
def coerceOne (ext : Ext) (unid : String) (item_id idx : Nat) (is_rich : Bool)
    (v : PyVal) (s : Store) : Store :=
  match v with
  | .bool b =>
    insert_item_value ext unid item_id idx "bool" none none none none
      (some (if b then 1 else 0)) none 0 s
  | .num n =>
    insert_item_value ext unid item_id idx "number" none none (some n) none none none 0 s
  | .dt d =>
    insert_item_value ext unid item_id idx "datetime" none none none (some d) none none 0 s
  | .noneV =>
    insert_item_value ext unid item_id idx "unknown" none none none none none none 0 s
  | .str sv =>
    match ext.parseDT sv with
    | some d =>
      insert_item_value ext unid item_id idx "datetime" none none none (some d) none none 0 s
    | none =>
      if sv.length ≤ 1024 then
        insert_item_value ext unid item_id idx (if is_rich then "richtext" else "string")
          (some sv) none none none none none 0 s
      else
        insert_item_value ext unid item_id idx (if is_rich then "richtext" else "text")
          (some (sv.take 1024)) (some sv) none none none none 0 s

/-- `coerce_insert_item_values` (lines 969-991): resolve the item id,
classify each value and write one item-value row plus the per-document
link. -/
def coerce_insert_item_values (ext : Ext) (unid : String) (item_name : String)
    (vals : List PyVal) (is_rich : Bool) (st : Store) : Store :=
  let (item_id, st1) := get_item_id item_name st
  (vals.enum).foldl (fun s iv => coerceOne ext unid item_id iv.1 is_rich iv.2 s) st1

/-- `get_doc_text_body` (lines 1032-1044): rich items contribute
`"<name>:\n<text>\n"`, plain items with a non-empty joined rendering of
at most 4096 characters contribute `"<name>: <joined>"`; parts joined
with newlines. -/
def get_doc_text_body (ext : Ext) (items : List NItem) : String :=
  String.intercalate "\n" (items.filterMap (fun item =>
    if item.rich then
      let txt := item.richText
      if txt ≠ "" then some (item.name ++ ":\n" ++ txt ++ "\n") else none
    else
      match item.values with
      | some vs =>
        if vs ≠ [] then
          let sv := String.intercalate "; " (vs.map (PyVal.render ext))
          if sv ≠ "" ∧ sv.length ≤ 4096 then some (item.name ++ ": " ++ sv) else none
        else none
      | none => none))

/-- The metadata scan of `upsert_document_from_notes` (lines 1050-1058):
first non-`None` head value of an item with the given (lowercased) name.
Assigning a `None` head leaves the Python variable `None`, so later
matching items still get considered — hence `filterMap` + head. -/
def firstMetaValue (names : List String) (items : List NItem) : Option PyVal :=
  (items.filterMap (fun item =>
    if py_lower item.name ∈ names then
      match item.values with
      | some (v :: _) => if v = .noneV then none else some v
      | _ => none
    else none)).head?

def SUBJECT_MAX : Nat := 1024

def FORM_MAX : Nat := 256

def AUTHOR_MAX : Nat := 512

/-- The document row assembled by `upsert_document_from_notes`
(lines 1050-1077) from the document and the extracted attachment
metadata. -/
def docRowOf (ext : Ext) (source_id : Nat) (doc : NotesDoc) (atts : List AttMeta) : DocRow :=
  let text_body := get_doc_text_body ext doc.items
  { unid := doc.unid
    source_id := source_id
    note_id := if py_strip doc.noteID = "" then none else some (py_strip doc.noteID)
    form := safe_str ext (firstMetaValue ["form"] doc.items) FORM_MAX
    subject := safe_str ext (firstMetaValue ["subject"] doc.items) SUBJECT_MAX
    author := safe_str ext (firstMetaValue ["author", "from", "postedby"] doc.items) AUTHOR_MAX
    created_at := doc.created
    modified_at := doc.modified
    has_attachments := if atts ≠ [] then 1 else 0
    text_hash := if text_body ≠ "" then some (ext.shaS text_body) else none
    text_body := text_body
    doc_size_bytes := if text_body ≠ "" then some text_body.utf8ByteSize else none }

/-- The item loop of `upsert_document_from_notes` (lines 1081-1093). -/
def upsertItemsLoop (ext : Ext) (unid : String) (items : List NItem) (st : Store) : Store :=
  items.foldl (fun s item =>
    if !should_store_item item.name s then s
    else if item.rich then
      coerce_insert_item_values ext unid item.name [.str item.richText] true s
    else
      match item.values with
      | some vs => coerce_insert_item_values ext unid item.name vs false s
      | none => s) st

/-- The attachment loop (lines 1096-1100): insert each metadata row and
remember `filename -> id` for truthy returned ids. -/
def upsertAttachmentsLoop (now : Nat) (unid : String) (atts : List AttMeta)
    (st : Store) : List (String × Nat) × Store :=
  atts.foldl (fun acc meta =>
    let (mo, s') := insert_attachment now unid meta acc.2
    match mo with
    | some aid => if aid ≠ 0 then (upsertA meta.filename aid acc.1, s') else (acc.1, s')
    | none => (acc.1, s')) ([], st)

/-- The `$FILE` loop (lines 1102-1112): one string value per filename,
linked to the attachment id when one was recorded. -/
def upsertFileLoop (ext : Ext) (unid : String) (items : List NItem)
    (att_map : List (String × Nat)) (st : Store) : Store :=
  items.foldl (fun s item =>
    if item.name ≠ "$FILE" then s
    else if !should_store_item "$FILE" s then s
    else
      let (fid, s1) := get_item_id "$FILE" s
      let vs := (item.values.getD [])
      (vs.enum).foldl (fun s2 iv =>
        let fn_s := iv.2.render ext
        insert_item_value ext unid fid iv.1 "string" (some fn_s) none none none none
          (lookupA fn_s att_map) 0 s2) s1) st

/-- The SQL effect of `upsert_document_from_notes` (lines 1046-1115) for
one document: the document upsert, the EAV item loop, the attachment
inserts and the `$FILE` linker.  `atts` is the output of
`extract_embedded_attachments_from_doc` (so an extraction failure is an
absent element), `now` is the SQL `NOW()` of this pass. -/
def upsert_document_from_notes (ext : Ext) (now : Nat) (source_id : Nat)
    (doc : NotesDoc) (atts : List AttMeta) (st : Store) : Store :=
  let st1 := upsert_document (docRowOf ext source_id doc atts) st
  let st2 := upsertItemsLoop ext doc.unid doc.items st1
  let (att_map, st3) := upsertAttachmentsLoop now doc.unid atts st2
  upsertFileLoop ext doc.unid doc.items att_map st3

/-! ## Commit boundaries of `process_view_into_db` (lines 1166-1234)

For claim C1 only the grouping of SQL writes into transactions matters.
`Effect` names the write sets; a transaction is the list of effects
between two `con.commit()` calls.  `upsert_document_from_notes` commits
at its end (line 1114); `insert_document_view` runs after that commit
and is flushed by the next commit on the shared connection; the batch
loop commits at line 1226 and, when a plan is present, writes the
checkpoint and commits again at line 1230. -/

inductive Effect
  | docUpsert (unid : String)
  | viewUpsert (unid : String)
  | ckptUpsert (next_index : Nat)
deriving DecidableEq, Repr

/-- The per-document inner loop of a batch: each document's writes commit
inside `upsert_document_from_notes`, carrying along whatever was pending
(the previous document's view row); its own view row stays pending. -/
def docTxns : List String → List Effect → List (List Effect) × List Effect
  | [], pending => ([], pending)
  | u :: rest, pending =>
    let (ts, p') := docTxns rest [Effect.viewUpsert u]
    ((pending ++ [Effect.docUpsert u]) :: ts, p')

/-- The batch loop, with fuel (one unit per batch; `remaining.length`
suffices whenever `batch_size > 0`; the source loops forever on
`batch_size = 0`). -/
def processViewTxnsAux (hasPlan : Bool) (batch_size : Nat) :
    Nat → List String → Nat → List (List Effect)
  | 0, _, _ => []
  | _ + 1, [], _ => []
  | fuel + 1, remaining@(_ :: _), idx =>
    let batch := remaining.take batch_size
    let (dts, pend) := docTxns batch []
    let idx' := idx + batch.length
    dts ++ [pend] ++ (if hasPlan then [[Effect.ckptUpsert idx']] else [])
      ++ processViewTxnsAux hasPlan batch_size fuel (remaining.drop batch_size) idx'

/-- The transaction sequence of `process_view_into_db` from `next_idx`
(the loaded checkpoint) over the snapshot's UNIDs.  Assumes every
document fetch succeeds (the failure paths skip SQL writes entirely). -/
def process_view_into_db_txns (hasPlan : Bool) (snapshot : List String)
    (next_idx : Nat) (batch_size : Nat) : List (List Effect) :=
  let remaining := snapshot.drop next_idx
  processViewTxnsAux hasPlan batch_size remaining.length remaining next_idx

/-! ## Invariants of the SQL store -/

/-- Structural facts every store reachable through MySQL satisfies:
auto-increment ids are nonzero (the Python truthiness guards rely on
this), the `items` primary key is honest and fresh inserts get fresh
ids. -/
def Store.WF (st : Store) : Prop :=
  (∀ r ∈ st.item_values, r.id ≠ 0) ∧
  (∀ a ∈ st.attachments, a.id ≠ 0) ∧
  st.next_iv_id ≠ 0 ∧
  st.next_att_id ≠ 0 ∧
  (st.items.map ItemRow.id).Nodup ∧
  (∀ r ∈ st.items, r.id < st.next_item_id)

instance (st : Store) : Decidable st.WF := by
  unfold Store.WF; infer_instance

/-- The spec invariant `has_attachments = 1 ⇔ ∃ Attachment with same UNID`
read over a store. -/
def hasAttachmentsInvariant (st : Store) : Prop :=
  ∀ p ∈ st.documents, (p.2.has_attachments = 1 ↔ ∃ a ∈ st.attachments, a.unid = p.2.unid)

instance (st : Store) : Decidable (hasAttachmentsInvariant st) := by
  unfold hasAttachmentsInvariant; infer_instance

/-- One `doc_item_values` write: key `(unid, item_id, val_order)`,
value `(item_value_id, is_summary)`. -/
def DW : Type := (String × Nat × Nat) × (Nat × Nat)

instance : DecidableEq DW := by unfold DW; infer_instance

/-- Append-only extension between stores on the tables the pass reads. -/
def extendsS (s T : Store) : Prop :=
  (∃ l, T.items = s.items ++ l) ∧ (∃ l, T.item_values = s.item_values ++ l) ∧
  (∃ l, T.attachments = s.attachments ++ l)

/-- Replace the `doc_item_values` table of a store. -/
def setDiv (st : Store) (d : List DW) : Store := { st with doc_item_values := d }

/-- Replace the `documents` table of a store. -/
def setDocs (st : Store) (docs : List (String × DocRow)) : Store :=
  { st with documents := docs }

/-- A trivial instantiation of the external primitives; its timestamps
are whole-second, so the DATETIME column stores them unchanged. -/
def extZero : Ext :=
  { shaS := fun _ => [], parseDT := fun _ => none, fmtDT := fun _ => "",
    dtStore := fun x => x }

/-- A document with no items. -/
def docEmptyD : NotesDoc :=
  { unid := "D", noteID := "", created := none, modified := none, items := [] }

/-- One extracted attachment. -/
def metaF : AttMeta :=
  { item_name := none, kind := "attachment", filename := "f.bin", mime_type := none,
    size_bytes := 3, sha256 := [1, 2], storage_path := "aa/bb/x.bin" }

/-! # Theorems -/

/-! ## Helper lemmas about the sanitiser -/

theorem stripUnderscores_length_le (l : List Char) :
    (stripUnderscores l).length ≤ l.length := by
  unfold stripUnderscores
  calc ((l.dropWhile (· = '_')).reverse.dropWhile (· = '_')).reverse.length
      = ((l.dropWhile (· = '_')).reverse.dropWhile (· = '_')).length := List.length_reverse _
    _ ≤ (l.dropWhile (· = '_')).reverse.length :=
        ((List.dropWhile_suffix _).sublist).length_le
    _ = (l.dropWhile (· = '_')).length := List.length_reverse _
    _ ≤ l.length := ((List.dropWhile_suffix _).sublist).length_le

theorem stripUnderscores_subset (l : List Char) : stripUnderscores l ⊆ l := by
  intro c hc
  unfold stripUnderscores at hc
  rw [List.mem_reverse] at hc
  have hc2 := ((List.dropWhile_suffix (l := (l.dropWhile (· = '_')).reverse)
    (· = '_')).sublist).subset hc
  rw [List.mem_reverse] at hc2
  exact ((List.dropWhile_suffix (l := l) (· = '_')).sublist).subset hc2

theorem collapseRunsAux_chars (prev : Bool) (l : List Char) (c : Char)
    (h : c ∈ collapseRunsAux prev l) :
    c = '_' ∨ (c ∈ l ∧ isCollapsible c = false) := by
  induction l generalizing prev with
  | nil => simp [collapseRunsAux] at h
  | cons d rest ih =>
    unfold collapseRunsAux at h
    by_cases hd : isCollapsible d
    · rw [if_pos hd] at h
      cases prev with
      | true =>
        rw [if_pos rfl] at h
        rcases ih _ h with h1 | ⟨h1, h2⟩
        · exact Or.inl h1
        · exact Or.inr ⟨List.mem_cons_of_mem _ h1, h2⟩
      | false =>
        rw [if_neg (by decide : ¬((false : Bool) = true))] at h
        rcases List.mem_cons.1 h with h1 | h1
        · exact Or.inl h1
        · rcases ih _ h1 with h2 | ⟨h2, h3⟩
          · exact Or.inl h2
          · exact Or.inr ⟨List.mem_cons_of_mem _ h2, h3⟩
    · rw [if_neg hd] at h
      rcases List.mem_cons.1 h with h1 | h1
      · subst h1
        exact Or.inr ⟨List.mem_cons_self _ _, by simpa using hd⟩
      · rcases ih _ h1 with h2 | ⟨h2, h3⟩
        · exact Or.inl h2
        · exact Or.inr ⟨List.mem_cons_of_mem _ h2, h3⟩

/-! ## Claim C7 — the adaptive limiter -/

/-- C7: when a service error raises the consecutive-error counter to 6
(from 5), `note_service_error` halves `page_size` with floor 25, raises
`page_sleep` by 0.5 capped at 3.0 and resets the counter; when it raises
the counter to 3 or 4 (from 2 or 3) it raises `page_sleep` by 0.25
capped at 2.0; `note_success` decrements the counter toward 0. -/
theorem claim_C7_limiter (st : AdaptiveLimiter) :
    (st.consec_service_errors = 5 →
      st.note_service_error =
        { consec_service_errors := 0,
          page_sleep := min (st.page_sleep + 1/2) 3,
          page_size := max MIN_PAGE_SIZE (st.page_size / 2) }) ∧
    ((st.consec_service_errors = 2 ∨ st.consec_service_errors = 3) →
      st.note_service_error =
        { st with consec_service_errors := st.consec_service_errors + 1,
                  page_sleep := min (st.page_sleep + 1/4) 2 }) ∧
    st.note_success.consec_service_errors = st.consec_service_errors - 1 := by
  refine ⟨?_, ?_, rfl⟩
  · intro h
    simp [AdaptiveLimiter.note_service_error, h, MAX_CONSEC_SERVICE_ERRORS]
  · rintro (h | h) <;>
      simp [AdaptiveLimiter.note_service_error, h, MAX_CONSEC_SERVICE_ERRORS]

/-- Witness for C7 at the concrete limiter state (5, 1.0, 100). -/
theorem claim_C7_limiter_witness :
    ((⟨5, 1, 100⟩ : AdaptiveLimiter).consec_service_errors = 5) ∧
    (⟨5, 1, 100⟩ : AdaptiveLimiter).note_service_error =
      { consec_service_errors := 0,
        page_sleep := min ((1 : ℚ) + 1/2) 3,
        page_size := max MIN_PAGE_SIZE (100 / 2) } :=
  ⟨rfl, (claim_C7_limiter ⟨5, 1, 100⟩).1 rfl⟩

/-! ## Claim C9 — CAS put is idempotent -/

/-- C9: storing the same content twice returns the same digest and the
same relative path (the sharded hex path of the SHA-256 digest), and the
second call performs no copy because the destination exists. -/
theorem claim_C9_cas (sha : List Nat → List Nat) (X : List Nat) (store : List String) :
    (cas_store sha X (cas_store sha X store).store).digest = (cas_store sha X store).digest ∧
    (cas_store sha X (cas_store sha X store).store).relpath = (cas_store sha X store).relpath ∧
    (cas_store sha X store).relpath = cas_relpath (hexOfDigest (sha X)) ∧
    (cas_store sha X (cas_store sha X store).store).copied = false := by
  by_cases h : cas_relpath (hexOfDigest (sha X)) ∈ store <;>
    simp [cas_store, h]

/-! ## Claim C4 — the notes_filter item policy -/

/-- C4: values of an item are stored iff the item is absent from the
catalog (unknown defaults to store) or its `notes_filter` equals 1;
a catalogued item with any other filter (NULL included) is skipped. -/
theorem claim_C4_item_filter (name : String) (st : Store) :
    should_store_item name st = true ↔
      (findItem name st = none ∨
       ∃ r, findItem name st = some r ∧ r.notes_filter = some 1) := by
  unfold should_store_item
  rcases h : findItem name st with _ | r
  · simp
  · rcases hnf : r.notes_filter with _ | nf
    · simp [hnf]
    · simp [hnf]

/-! ## Claim C8 — folder-name sanitisation -/

/-- C8 counterexample: the claim says the result is never empty (at
minimum "Unnamed"), but an input that reduces to underscores only —
here a single forbidden character — sanitises to the empty string:
`"?" → "_" → "" ` after `strip("_")`. -/
theorem claim_C8_counterexample : sanitize_folder_name "?" = "" := by decide

/-- C8 as amended: the result has length at most 100, contains no
forbidden filesystem character and no whitespace, and an empty or
whitespace-only input yields "Unnamed"; but an input consisting only of
forbidden characters, underscores and whitespace may sanitise to the
empty string. -/
theorem claim_C8_amended (name : String) :
    (sanitize_folder_name name).length ≤ 100 ∧
    (∀ c ∈ (sanitize_folder_name name).data, c ∉ FORBIDDEN_CHARS ∧ c.isWhitespace = false) ∧
    (py_strip name = "" → sanitize_folder_name name = "Unnamed") := by
  refine ⟨?_, ?_, ?_⟩
  · unfold sanitize_folder_name
    split
    · decide
    · have h1 : (stripUnderscores ((collapseRunsAux false (name.data.map replaceForbidden)).take 100)).length ≤
          ((collapseRunsAux false (name.data.map replaceForbidden)).take 100).length :=
        stripUnderscores_length_le _
      have h2 := List.length_take_le 100 (collapseRunsAux false (name.data.map replaceForbidden))
      simpa [String.length] using le_trans h1 h2
  · unfold sanitize_folder_name
    split
    · decide
    · intro c hc
      have hc1 : c ∈ (collapseRunsAux false (name.data.map replaceForbidden)).take 100 :=
        stripUnderscores_subset _ hc
      have hc2 : c ∈ collapseRunsAux false (name.data.map replaceForbidden) :=
        List.take_subset _ _ hc1
      rcases collapseRunsAux_chars _ _ _ hc2 with h | ⟨hmem, hncol⟩
      · subst h; refine ⟨by decide, by decide⟩
      · rcases List.mem_map.1 hmem with ⟨d, _, hd⟩
        by_cases hdf : d ∈ FORBIDDEN_CHARS
        · exfalso
          rw [← hd] at hncol
          unfold replaceForbidden at hncol
          rw [if_pos hdf] at hncol
          exact absurd hncol (by decide)
        · have hcd : c = d := by
            rw [← hd]; unfold replaceForbidden; rw [if_neg hdf]
          subst hcd
          refine ⟨hdf, ?_⟩
          by_contra hw
          simp only [Bool.not_eq_false] at hw
          simp [isCollapsible, hw] at hncol
  · intro h
    unfold sanitize_folder_name
    simp [h]

/-- Witness for C8 as amended at the whitespace-only input " ". -/
theorem claim_C8_amended_witness :
    py_strip " " = "" ∧ sanitize_folder_name " " = "Unnamed" :=
  ⟨by decide, (claim_C8_amended " ").2.2 (by decide)⟩

/-! ## Association-list lemmas -/

theorem lookupA_cons_eq {κ ν : Type} [DecidableEq κ] {k k' : κ} (w : ν) (L : List (κ × ν))
    (h : k' = k) : lookupA k ((k', w) :: L) = some w := by
  unfold lookupA; rw [if_pos h]

theorem lookupA_cons_ne {κ ν : Type} [DecidableEq κ] {k k' : κ} (w : ν) (L : List (κ × ν))
    (h : k' ≠ k) : lookupA k ((k', w) :: L) = lookupA k L := by
  simp only [lookupA]; rw [if_neg h]

theorem replaceA_cons_eq {κ ν : Type} [DecidableEq κ] {k k' : κ} (v w : ν) (L : List (κ × ν))
    (h : k' = k) : replaceA k v ((k', w) :: L) = (k', v) :: L := by
  unfold replaceA; rw [if_pos h]

theorem replaceA_cons_ne {κ ν : Type} [DecidableEq κ] {k k' : κ} (v w : ν) (L : List (κ × ν))
    (h : k' ≠ k) : replaceA k v ((k', w) :: L) = (k', w) :: replaceA k v L := by
  simp only [replaceA]; rw [if_neg h]

theorem upsertA_cons_ne {κ ν : Type} [DecidableEq κ] {k k' : κ} (v w : ν) (L : List (κ × ν))
    (h : k' ≠ k) : upsertA k v ((k', w) :: L) = (k', w) :: upsertA k v L := by
  unfold upsertA containsA
  rw [lookupA_cons_ne w L h]
  by_cases hc : (lookupA k L).isSome
  · rw [if_pos hc, if_pos hc, replaceA_cons_ne v w L h]
  · rw [if_neg hc, if_neg hc]; rfl

theorem lookupA_upsertA_self {κ ν : Type} [DecidableEq κ] (k : κ) (v : ν) (L : List (κ × ν)) :
    lookupA k (upsertA k v L) = some v := by
  induction L with
  | nil => simp [upsertA, containsA, lookupA]
  | cons p L ih =>
    obtain ⟨k', w⟩ := p
    by_cases h : k' = k
    · subst h
      unfold upsertA containsA
      rw [lookupA_cons_eq w L rfl]
      simp only [Option.isSome_some, if_pos]
      rw [replaceA_cons_eq v w L rfl, lookupA_cons_eq v L rfl]
    · rw [upsertA_cons_ne v w L h, lookupA_cons_ne w (upsertA k v L) h]
      exact ih

theorem foldl_upsert_map (l : List String) (v : Option String)
    (acc : List (String × Option String)) :
    l.foldl (fun a k => upsertA k v a) acc =
      (l.map (fun k => (k, v))).foldl (fun a p => upsertA p.1 p.2 a) acc := by
  induction l generalizing acc with
  | nil => rfl
  | cons x xs ih => simp only [List.foldl_cons, List.map_cons, ih]

theorem foldl_fun_congr {α β : Type} (l : List α) (f g : β → α → β) (i : β)
    (h : ∀ b a, f b a = g b a) : l.foldl f i = l.foldl g i := by
  induction l generalizing i with
  | nil => rfl
  | cons x xs ih => simp only [List.foldl_cons, h, ih]

/-! ## Claim C10 — managers-file shape detection -/

/-- C10: `load_managers_file` coincides with the claim-side description:
a dict input is interpreted globally (manager-to-children as soon as any
value is a list, child-to-manager only when none is), and each array row
maps reports to its `managerId` when it carries one with a list-valued
`reports`, else maps `id` to `managerId` when it carries both. -/
theorem claim_C10_managers (j : ManagersJson) :
    load_managers_file j = load_managers_spec j := by
  cases j with
  | dict entries =>
    show (let any_list := entries.any (fun e => e.2.isList) ; _) = _
    by_cases h : entries.any (fun e => e.2.isList)
    · have hm : detectShape entries = .managerToChildren := by
        unfold detectShape; rw [if_pos h]
      show (if entries.any (fun e => e.2.isList) then _ else _) = _
      rw [if_pos h]
      unfold load_managers_spec
      simp only [hm]
      apply foldl_fun_congr
      intro acc e
      obtain ⟨m, v⟩ := e
      exact foldl_upsert_map _ _ _
    · have hm : detectShape entries = .childToManager := by
        unfold detectShape; rw [if_neg h]
      show (if entries.any (fun e => e.2.isList) then _ else _) = _
      rw [if_neg h]
      unfold load_managers_spec
      simp only [hm]
      apply foldl_fun_congr
      intro acc e
      obtain ⟨c, v⟩ := e
      rfl
  | list rows =>
    unfold load_managers_file load_managers_spec
    apply foldl_fun_congr
    intro acc row
    unfold mergePairs interpretRow
    by_cases h1 : containsA "managerId" row ∧ reportsIsList row
    · rw [if_pos h1, if_pos h1]
      exact foldl_upsert_map _ _ _
    · rw [if_neg h1, if_neg h1]
      by_cases h2 : containsA "id" row ∧ containsA "managerId" row
      · rw [if_pos h2, if_pos h2]; rfl
      · rw [if_neg h2, if_neg h2]; rfl

/-! ## Keyed-write replay machinery -/

theorem foldl_proj_const {α β γ : Type} (proj : α → γ) (f : α → β → α)
    (h : ∀ a b, proj (f a b) = proj a) :
    ∀ (l : List β) (a : α), proj (l.foldl f a) = proj a := by
  intro l
  induction l with
  | nil => intro a; rfl
  | cons x xs ih => intro a; rw [List.foldl_cons, ih, h]

theorem get_item_id_documents (name : String) (st : Store) :
    (get_item_id name st).2.documents = st.documents := by
  unfold get_item_id
  cases findItem name st <;> rfl

theorem insert_item_value_documents (ext : Ext) (u : String) (i o : Nat) (k : String)
    (s t : Option String) (n : Option Int) (dt : Option Nat) (b a : Option Nat)
    (su : Nat) (st : Store) :
    (insert_item_value ext u i o k s t n dt b a su st).documents = st.documents := by
  unfold insert_item_value link_doc_item_value get_or_create_item_value insert_item_value_row
  cases select_existing_item_value i k s t n dt b a st with
  | none => rfl
  | some j => by_cases hj : j ≠ 0 <;> simp [hj]

theorem coerceOne_documents (ext : Ext) (u : String) (iid idx : Nat) (ir : Bool)
    (v : PyVal) (s : Store) :
    (coerceOne ext u iid idx ir v s).documents = s.documents := by
  cases v with
  | bool b => simp only [coerceOne]; exact insert_item_value_documents ..
  | num n => simp only [coerceOne]; exact insert_item_value_documents ..
  | dt d => simp only [coerceOne]; exact insert_item_value_documents ..
  | noneV => simp only [coerceOne]; exact insert_item_value_documents ..
  | str sv =>
    simp only [coerceOne]
    cases ext.parseDT sv with
    | some d => exact insert_item_value_documents ..
    | none =>
      by_cases hl : sv.length ≤ 1024
      · rw [if_pos hl]; exact insert_item_value_documents ..
      · rw [if_neg hl]; exact insert_item_value_documents ..

theorem coerce_documents (ext : Ext) (u nm : String) (vals : List PyVal) (ir : Bool)
    (st : Store) :
    (coerce_insert_item_values ext u nm vals ir st).documents = st.documents := by
  unfold coerce_insert_item_values
  rcases hg : get_item_id nm st with ⟨iid, st1⟩
  have h1 : st1.documents = st.documents := by
    have h := get_item_id_documents nm st; rw [hg] at h; exact h
  rw [foldl_proj_const (fun s => s.documents) _ ?_ _ st1]
  · exact h1
  · intro s iv
    exact coerceOne_documents ext u iid iv.1 ir iv.2 s

theorem should_store_branch_documents (ext : Ext) (u : String) (item : NItem) (s : Store) :
    ((if !should_store_item item.name s then s
      else if item.rich then coerce_insert_item_values ext u item.name [.str item.richText] true s
      else match item.values with
        | some vs => coerce_insert_item_values ext u item.name vs false s
        | none => s)).documents = s.documents := by
  by_cases hs : should_store_item item.name s = true
  · rw [if_neg (by rw [hs]; decide)]
    by_cases hr : item.rich
    · rw [if_pos hr]; exact coerce_documents ..
    · rw [if_neg hr]
      cases item.values with
      | some vs => exact coerce_documents ..
      | none => rfl
  · rw [if_pos (by simp [Bool.not_eq_true] at hs; rw [hs]; rfl)]

theorem itemsLoop_documents (ext : Ext) (u : String) (items : List NItem) (st : Store) :
    (upsertItemsLoop ext u items st).documents = st.documents := by
  unfold upsertItemsLoop
  exact foldl_proj_const (fun s => s.documents) _
    (fun s item => should_store_branch_documents ext u item s) items st

theorem insert_attachment_documents (now : Nat) (u : String) (meta : AttMeta) (st : Store) :
    (insert_attachment now u meta st).2.documents = st.documents := by
  unfold insert_attachment
  dsimp only
  split <;> rfl

theorem attachmentsLoop_documents (now : Nat) (u : String) (atts : List AttMeta) (st : Store) :
    (upsertAttachmentsLoop now u atts st).2.documents = st.documents := by
  unfold upsertAttachmentsLoop
  refine foldl_proj_const (fun a : List (String × Nat) × Store => a.2.documents) _ ?_ atts ([], st)
  intro acc meta
  have h := insert_attachment_documents now u meta acc.2
  rcases hins : insert_attachment now u meta acc.2 with ⟨mo, s'⟩
  rw [hins] at h
  cases mo with
  | none => exact h
  | some aid =>
    dsimp only
    by_cases ha : aid ≠ 0
    · rw [if_pos ha]; exact h
    · rw [if_neg ha]; exact h

theorem fileLoop_documents (ext : Ext) (u : String) (items : List NItem)
    (am : List (String × Nat)) (st : Store) :
    (upsertFileLoop ext u items am st).documents = st.documents := by
  unfold upsertFileLoop
  refine foldl_proj_const (fun s => s.documents) _ ?_ items st
  intro s item
  by_cases hn : item.name ≠ "$FILE"
  · rw [if_pos hn]
  · rw [if_neg hn]
    by_cases hs : should_store_item "$FILE" s = true
    · rw [if_neg (by rw [hs]; decide)]
      have h1 : (get_item_id "$FILE" s).2.documents = s.documents :=
        get_item_id_documents "$FILE" s
      rcases hg : get_item_id "$FILE" s with ⟨fid, s1⟩
      rw [hg] at h1
      refine Eq.trans (foldl_proj_const (fun s2 : Store => s2.documents) _ ?_ _ _) h1
      intro s2 iv
      exact insert_item_value_documents ..
    · rw [if_pos (by simp [Bool.not_eq_true] at hs; rw [hs]; rfl)]

/-- After the whole pass, `documents` is exactly the initial upsert of the
assembled document row. -/
theorem pass_documents (ext : Ext) (now source_id : Nat) (doc : NotesDoc)
    (atts : List AttMeta) (st : Store) :
    (upsert_document_from_notes ext now source_id doc atts st).documents =
      upsertA doc.unid (docRowOf ext source_id doc atts) st.documents := by
  unfold upsert_document_from_notes
  dsimp only
  have h := attachmentsLoop_documents now doc.unid atts
    (upsertItemsLoop ext doc.unid doc.items
      (upsert_document (docRowOf ext source_id doc atts) st))
  rcases hal : upsertAttachmentsLoop now doc.unid atts
      (upsertItemsLoop ext doc.unid doc.items
        (upsert_document (docRowOf ext source_id doc atts) st)) with ⟨am, st3⟩
  rw [hal] at h
  rw [fileLoop_documents]
  rw [show st3.documents =
      (upsertItemsLoop ext doc.unid doc.items
        (upsert_document (docRowOf ext source_id doc atts) st)).documents from h]
  rw [itemsLoop_documents]
  rfl

/-! ## Claim C5 — text_hash invariant -/

/-- C5: the document row written by an upsert pass has
`text_hash = SHA-256(utf8(text_body))` when `text_body` is non-empty and
NULL when it is empty. -/
theorem claim_C5_text_hash (ext : Ext) (now source_id : Nat) (doc : NotesDoc)
    (atts : List AttMeta) (st : Store) :
    ∃ row, lookupA doc.unid
        (upsert_document_from_notes ext now source_id doc atts st).documents = some row ∧
      row.text_hash = (if row.text_body = "" then none else some (ext.shaS row.text_body)) := by
  refine ⟨docRowOf ext source_id doc atts, ?_, ?_⟩
  · rw [pass_documents, lookupA_upsertA_self]
  · by_cases h : get_doc_text_body ext doc.items = "" <;> simp [docRowOf, h]

/-! ## Claim C6 — has_attachments -/

/-- C6 counterexample: after a pass whose extraction yields no
attachment metadata (for example because extraction of the embedded
object failed), `has_attachments` is reset to 0 even though Attachment
rows with the same UNID persist from the earlier pass: the spec
invariant `has_attachments = 1 ⇔ ∃ Attachment with same UNID` fails. -/
theorem claim_C6_counterexample :
    ¬ hasAttachmentsInvariant
        (upsert_document_from_notes extZero 2 1 docEmptyD []
          (upsert_document_from_notes extZero 1 1 docEmptyD [metaF] Store.empty)) := by
  decide

/-- C6 as amended: `has_attachments` reflects only the current pass —
the stored row has `has_attachments = 1` iff the pass extracted at least
one embedded object; Attachment rows persisted by earlier passes (or
objects whose extraction failed now) are not consulted. -/
theorem claim_C6_amended (ext : Ext) (now source_id : Nat) (doc : NotesDoc)
    (atts : List AttMeta) (st : Store) :
    ∃ row, lookupA doc.unid
        (upsert_document_from_notes ext now source_id doc atts st).documents = some row ∧
      (row.has_attachments = 1 ↔ atts ≠ []) := by
  refine ⟨docRowOf ext source_id doc atts, ?_, ?_⟩
  · rw [pass_documents, lookupA_upsertA_self]
  · by_cases h : atts = [] <;> simp [docRowOf, h]

/-! ## Claim C1 — checkpoint and batch transaction boundaries -/

/-- C1 counterexample: with one UNID and a plan, the commit sequence is
`[[docUpsert A], [viewUpsert A], [ckptUpsert 1]]`: the transaction that
advances the checkpoint contains none of the batch's document rows
(each document commits inside `upsert_document_from_notes`, the
checkpoint commits separately at line 1230), so the claimed
same-transaction property fails. -/
theorem claim_C1_counterexample :
    ¬ (∀ t ∈ process_view_into_db_txns true ["A"] 0 50,
        Effect.ckptUpsert 1 ∈ t → Effect.docUpsert "A" ∈ t) := by
  decide

theorem docTxns_fst_no_ckpt :
    ∀ (batch : List String) (pending : List Effect),
      (∀ e ∈ pending, ∀ i, e ≠ Effect.ckptUpsert i) →
      ∀ t ∈ (docTxns batch pending).1, ∀ e ∈ t, ∀ i, e ≠ Effect.ckptUpsert i := by
  intro batch
  induction batch with
  | nil => intro pending _ t ht; simp [docTxns] at ht
  | cons u rest ih =>
    intro pending hp t ht e he i
    simp only [docTxns] at ht
    rcases List.mem_cons.1 ht with h1 | h1
    · subst h1
      rcases List.mem_append.1 he with h2 | h2
      · exact hp e h2 i
      · rcases List.mem_singleton.1 h2 with rfl
        intro hx; cases hx
    · exact ih [Effect.viewUpsert u] (by intro e' he' j; rcases List.mem_singleton.1 he' with rfl; intro hx; cases hx) t h1 e he i

theorem docTxns_snd_no_ckpt :
    ∀ (batch : List String) (pending : List Effect),
      (∀ e ∈ pending, ∀ i, e ≠ Effect.ckptUpsert i) →
      ∀ e ∈ (docTxns batch pending).2, ∀ i, e ≠ Effect.ckptUpsert i := by
  intro batch
  induction batch with
  | nil => intro pending hp e he i; exact hp e he i
  | cons u rest ih =>
    intro pending _ e he i
    simp only [docTxns] at he
    exact ih [Effect.viewUpsert u]
      (by intro e' he' j; rcases List.mem_singleton.1 he' with rfl; intro hx; cases hx) e he i

theorem docTxns_docs :
    ∀ (batch : List String) (pending : List Effect) (u : String), u ∈ batch →
      Effect.docUpsert u ∈ (docTxns batch pending).1.flatten := by
  intro batch
  induction batch with
  | nil => intro pending u hu; simp at hu
  | cons v rest ih =>
    intro pending u hu
    simp only [docTxns]
    rcases List.mem_cons.1 hu with h1 | h1
    · subst h1
      exact List.mem_flatten.2 ⟨pending ++ [Effect.docUpsert u], List.mem_cons_self _ _,
        List.mem_append.2 (Or.inr (List.mem_singleton.2 rfl))⟩
    · have h2 := ih [Effect.viewUpsert v] u h1
      rcases List.mem_flatten.1 h2 with ⟨t, ht, he⟩
      exact List.mem_flatten.2 ⟨t, List.mem_cons_of_mem _ ht, he⟩

/-- Splitting a membership in the flattening of a taken prefix of an
append. -/
theorem mem_take_flatten_append {α : Type} (l1 l2 : List (List α)) (n : Nat) (e : α)
    (h : e ∈ ((l1 ++ l2).take n).flatten) :
    e ∈ l1.flatten ∨ (l1.length ≤ n ∧ e ∈ (l2.take (n - l1.length)).flatten) := by
  rw [List.take_append_eq_append_take, List.flatten_append] at h
  rcases List.mem_append.1 h with h1 | h1
  · left
    rcases List.mem_flatten.1 h1 with ⟨t, ht, he⟩
    exact List.mem_flatten.2 ⟨t, List.mem_of_mem_take ht, he⟩
  · right
    by_cases hn : l1.length ≤ n
    · exact ⟨hn, h1⟩
    · have : n - l1.length = 0 := Nat.sub_eq_zero_of_le (le_of_not_le hn)
      rw [this] at h1
      simp at h1

/-- Membership in a flattened left part survives taking `n ≥ |l1|`. -/
theorem mem_flatten_take_left {α : Type} (l1 l2 : List (List α)) (n : Nat) (e : α)
    (hn : l1.length ≤ n) (h : e ∈ l1.flatten) : e ∈ ((l1 ++ l2).take n).flatten := by
  rw [List.take_append_eq_append_take, List.flatten_append, List.take_all_of_le hn]
  exact List.mem_append.2 (Or.inl h)

/-- Membership in the flattened taken right part embeds back. -/
theorem mem_flatten_take_right {α : Type} (l1 l2 : List (List α)) (n : Nat) (e : α)
    (h : e ∈ (l2.take (n - l1.length)).flatten) : e ∈ ((l1 ++ l2).take n).flatten := by
  rw [List.take_append_eq_append_take, List.flatten_append]
  exact List.mem_append.2 (Or.inr h)

theorem take_min_length {α : Type} (l : List α) (m : Nat) :
    l.take (min m l.length) = l.take m := by
  by_cases h : m ≤ l.length
  · rw [min_eq_left h]
  · rw [min_eq_right (le_of_not_le h), List.take_length,
      List.take_all_of_le (le_of_not_le h)]

/-- Every transaction of the batch loop that contains a checkpoint write
is exactly that single checkpoint write. -/
theorem processViewTxnsAux_ckpt_alone (hasPlan : Bool) (bs : Nat) :
    ∀ (fuel : Nat) (remaining : List String) (idx : Nat),
      ∀ t ∈ processViewTxnsAux hasPlan bs fuel remaining idx,
        ∀ i, Effect.ckptUpsert i ∈ t → t = [Effect.ckptUpsert i] := by
  intro fuel
  induction fuel with
  | zero => intro remaining idx t ht; simp [processViewTxnsAux] at ht
  | succ fuel ih =>
    intro remaining idx t ht i hi
    cases remaining with
    | nil => simp [processViewTxnsAux] at ht
    | cons r rs =>
      simp only [processViewTxnsAux] at ht
      rcases hdt : docTxns ((r :: rs).take bs) [] with ⟨dts, pend⟩
      rw [hdt] at ht
      rcases List.mem_append.1 ht with h1 | h1
      · rcases List.mem_append.1 h1 with h2 | h2
        · rcases List.mem_append.1 h2 with h3 | h3
          · exfalso
            have := docTxns_fst_no_ckpt ((r :: rs).take bs) [] (by intro e he; simp at he)
            rw [hdt] at this
            exact this t h3 _ hi i rfl
          · rcases List.mem_singleton.1 h3 with rfl
            exfalso
            have := docTxns_snd_no_ckpt ((r :: rs).take bs) [] (by intro e he; simp at he)
            rw [hdt] at this
            exact this _ hi i rfl
        · cases hasPlan with
          | true =>
            rw [if_pos rfl] at h2
            have ht2 := List.mem_singleton.1 h2
            subst ht2
            rw [← List.mem_singleton.1 hi]
          | false =>
            rw [if_neg (by decide)] at h2
            simp at h2
      · exact ih (List.drop bs (r :: rs)) _ t h1 i hi

/-- No committed prefix contains a checkpoint write without the document
writes of everything it attests to (cumulatively from the resume index). -/
theorem processViewTxnsAux_ckpt_order (hasPlan : Bool) (bs : Nat) :
    ∀ (fuel : Nat) (remaining : List String) (idx n i : Nat),
      Effect.ckptUpsert i ∈ ((processViewTxnsAux hasPlan bs fuel remaining idx).take n).flatten →
      ∀ u ∈ remaining.take (i - idx),
        Effect.docUpsert u ∈ ((processViewTxnsAux hasPlan bs fuel remaining idx).take n).flatten := by
  intro fuel
  induction fuel with
  | zero => intro remaining idx n i hi; simp [processViewTxnsAux] at hi
  | succ fuel ih =>
    intro remaining idx n i hi u hu
    cases remaining with
    | nil => simp [processViewTxnsAux] at hi
    | cons r rs =>
      simp only [processViewTxnsAux] at hi ⊢
      rcases hdt : docTxns ((r :: rs).take bs) [] with ⟨dts, pend⟩
      rw [hdt] at hi
      dsimp only at hi ⊢
      have hnockpt : ∀ e ∈ (dts ++ [pend]).flatten, ∀ j, e ≠ Effect.ckptUpsert j := by
        intro e he j
        rcases List.mem_flatten.1 he with ⟨t, ht, he'⟩
        rcases List.mem_append.1 ht with h1 | h1
        · have := docTxns_fst_no_ckpt ((r :: rs).take bs) [] (by intro e' he''; simp at he'')
          rw [hdt] at this
          exact this t h1 e he' j
        · rcases List.mem_singleton.1 h1 with rfl
          have := docTxns_snd_no_ckpt ((r :: rs).take bs) [] (by intro e' he''; simp at he'')
          rw [hdt] at this
          exact this e he' j
      -- regroup: the produced list is (dts ++ [pend]) ++ (C ++ rec)
      rw [show dts ++ [pend] ++ (if hasPlan then [[Effect.ckptUpsert (idx + ((r :: rs).take bs).length)]] else [])
            ++ processViewTxnsAux hasPlan bs fuel (List.drop bs (r :: rs)) (idx + ((r :: rs).take bs).length)
          = (dts ++ [pend]) ++ ((if hasPlan then [[Effect.ckptUpsert (idx + ((r :: rs).take bs).length)]] else [])
            ++ processViewTxnsAux hasPlan bs fuel (List.drop bs (r :: rs)) (idx + ((r :: rs).take bs).length))
          from by simp] at hi ⊢
      rcases mem_take_flatten_append _ _ _ _ hi with h1 | ⟨hlen, h1⟩
      · exact absurd rfl (hnockpt _ h1 i)
      · -- the checkpoint sits in C ++ rec
        have hbatchlen : (idx + ((r :: rs).take bs).length) - idx = ((r :: rs).take bs).length := by
          omega
        cases hasPlan with
        | true =>
          rw [if_pos rfl] at h1 ⊢
          rcases mem_take_flatten_append _ _ _ _ h1 with h2 | ⟨hlen2, h2⟩
          · -- i is this batch's checkpoint
            have hieq : i = idx + ((r :: rs).take bs).length := by
              have h3 : Effect.ckptUpsert i
                  = Effect.ckptUpsert (idx + ((r :: rs).take bs).length) := by
                simpa using h2
              injection h3
            subst hieq
            rw [hbatchlen] at hu
            have hu' : u ∈ (r :: rs).take bs := by
              rw [← take_min_length (r :: rs) bs, ← List.length_take]
              exact hu
            have hdoc := docTxns_docs ((r :: rs).take bs) [] u hu'
            rw [hdt] at hdoc
            refine mem_flatten_take_left _ _ _ _ hlen ?_
            rw [List.flatten_append]
            exact List.mem_append.2 (Or.inl hdoc)
          · -- i is a later batch's checkpoint; use induction
            have hu2 : u ∈ (r :: rs).take bs ∨ u ∈ (List.drop bs (r :: rs)).take (i - (idx + ((r :: rs).take bs).length)) := by
              have hsplit : (r :: rs).take (i - idx)
                  = ((r :: rs).take bs).take (i - idx)
                    ++ ((List.drop bs (r :: rs)).take ((i - idx) - ((r :: rs).take bs).length)) := by
                conv_lhs => rw [← List.take_append_drop bs (r :: rs)]
                rw [List.take_append_eq_append_take]
              rw [hsplit] at hu
              rcases List.mem_append.1 hu with h3 | h3
              · exact Or.inl (List.mem_of_mem_take h3)
              · right
                rwa [Nat.sub_sub] at h3
            rcases hu2 with h3 | h3
            · have hdoc := docTxns_docs ((r :: rs).take bs) [] u h3
              rw [hdt] at hdoc
              refine mem_flatten_take_left _ _ _ _ hlen ?_
              rw [List.flatten_append]
              exact List.mem_append.2 (Or.inl hdoc)
            · have hrec := ih (List.drop bs (r :: rs)) (idx + ((r :: rs).take bs).length)
                (n - (dts ++ [pend]).length - 1) i (by
                  simpa using h2) u h3
              refine mem_flatten_take_right _ _ _ _ ?_
              refine mem_flatten_take_right [[Effect.ckptUpsert (idx + ((r :: rs).take bs).length)]] _ _ _ ?_
              simpa using hrec
        | false =>
          rw [if_neg (by decide)] at h1 ⊢
          rw [List.nil_append] at h1 ⊢
          have hu2 : u ∈ (r :: rs).take bs
              ∨ u ∈ (List.drop bs (r :: rs)).take (i - (idx + ((r :: rs).take bs).length)) := by
            have hsplit : (r :: rs).take (i - idx)
                = ((r :: rs).take bs).take (i - idx)
                  ++ ((List.drop bs (r :: rs)).take ((i - idx) - ((r :: rs).take bs).length)) := by
              conv_lhs => rw [← List.take_append_drop bs (r :: rs)]
              rw [List.take_append_eq_append_take]
            rw [hsplit] at hu
            rcases List.mem_append.1 hu with h3 | h3
            · exact Or.inl (List.mem_of_mem_take h3)
            · right; rwa [Nat.sub_sub] at h3
          rcases hu2 with h3 | h3
          · have hdoc := docTxns_docs ((r :: rs).take bs) [] u h3
            rw [hdt] at hdoc
            refine mem_flatten_take_left _ _ _ _ hlen ?_
            rw [List.flatten_append]
            exact List.mem_append.2 (Or.inl hdoc)
          · have hrec := ih (List.drop bs (r :: rs)) (idx + ((r :: rs).take bs).length)
              (n - (dts ++ [pend]).length) i h1 u h3
            exact mem_flatten_take_right _ _ _ _ hrec

/-- C1 as amended: the checkpoint advance is committed in its own
transaction containing nothing but the checkpoint write (each document
commits inside `upsert_document_from_notes`, the batch's remaining view
rows commit next, the checkpoint last); consequently a committed state
can hold a batch's documents without the advanced checkpoint, but never
the advanced checkpoint without every document it attests to: any
committed prefix containing `ckptUpsert i` contains the document writes
of all snapshot entries up to index `i`. -/
theorem claim_C1_amended (hasPlan : Bool) (snapshot : List String) (next_idx bs : Nat) :
    (∀ t ∈ process_view_into_db_txns hasPlan snapshot next_idx bs,
      ∀ i, Effect.ckptUpsert i ∈ t → t = [Effect.ckptUpsert i]) ∧
    (∀ n i, Effect.ckptUpsert i ∈
        ((process_view_into_db_txns hasPlan snapshot next_idx bs).take n).flatten →
      ∀ u ∈ (snapshot.drop next_idx).take (i - next_idx),
        Effect.docUpsert u ∈
          ((process_view_into_db_txns hasPlan snapshot next_idx bs).take n).flatten) := by
  constructor
  · intro t ht i hi
    exact processViewTxnsAux_ckpt_alone hasPlan bs _ _ _ t ht i hi
  · intro n i hi u hu
    exact processViewTxnsAux_ckpt_order hasPlan bs _ _ _ n i hi u hu

/-- Witness for C1 as amended on the one-document snapshot. -/
theorem claim_C1_amended_witness :
    ([Effect.ckptUpsert 1] ∈ process_view_into_db_txns true ["A"] 0 50) ∧
    (Effect.ckptUpsert 1 ∈ ((process_view_into_db_txns true ["A"] 0 50).take 3).flatten) ∧
    (Effect.docUpsert "A" ∈ ((process_view_into_db_txns true ["A"] 0 50).take 3).flatten) :=
  ⟨by decide, by decide,
    (claim_C1_amended true ["A"] 0 50).2 3 1 (by decide) "A" (by decide)⟩

/-! ## Claim C3 — the hierarchy builder -/

/-- C3 counterexample: on the two-user manager cycle a ↔ b the roots
list is empty, so the returned forest contains no node at all — user "a"
appears zero times, not exactly once. -/
theorem claim_C3_counterexample :
    countIdList "a" (build_hierarchy [⟨"a", some "A"⟩, ⟨"b", some "B"⟩]
      [("a", some "b"), ("b", some "a")]) = 0 := by
  decide

theorem ancIter_succ (users : List GUser) (mm : List (String × Option String))
    (j : Nat) (x : String) :
    ancIter users mm (j + 1) x = (ancIter users mm j x).bind (parentIdOf users mm) := rfl

theorem ancIter_none_mono (users : List GUser) (mm : List (String × Option String))
    (x : String) (j : Nat) :
    ∀ k, j ≤ k → ancIter users mm j x = none → ancIter users mm k x = none := by
  intro k
  induction k with
  | zero =>
    intro hjk h
    have hj : j = 0 := Nat.le_zero.1 hjk
    subst hj; exact h
  | succ k ih =>
    intro hjk h
    by_cases hj : j = k + 1
    · subst hj; exact h
    · rw [ancIter_succ, ih (by omega) h]; rfl

theorem parentIdOf_target_mem (users : List GUser) (mm : List (String × Option String))
    (y m : String) (h : parentIdOf users mm y = some m) : m ∈ idsOf users := by
  unfold parentIdOf at h
  by_cases hy : y ∈ idsOf users
  · rw [if_pos hy] at h
    cases hmg : mgrIdOf mm y with
    | none => rw [hmg] at h; exact absurd h (by simp)
    | some m' =>
      rw [hmg] at h
      dsimp only at h
      by_cases hc : m' ≠ "" ∧ m' ∈ idsOf users
      · rw [if_pos hc] at h
        have := Option.some.inj h
        subst this; exact hc.2
      · rw [if_neg hc] at h; exact absurd h (by simp)
  · rw [if_neg hy] at h; exact absurd h (by simp)

theorem parentIdOf_dom_mem (users : List GUser) (mm : List (String × Option String))
    (y m : String) (h : parentIdOf users mm y = some m) : y ∈ idsOf users := by
  unfold parentIdOf at h
  by_cases hy : y ∈ idsOf users
  · exact hy
  · rw [if_neg hy] at h; exact absurd h (by simp)

theorem countP_pointwise {p q : Nat → Bool} :
    ∀ l : List Nat, (∀ a ∈ l, p a = q a) → l.countP p = l.countP q := by
  intro l
  induction l with
  | nil => intro _; rfl
  | cons a l ih =>
    intro h
    rw [List.countP_cons, List.countP_cons, h a (List.mem_cons_self _ _),
      ih (fun b hb => h b (List.mem_cons_of_mem _ hb))]

theorem countP_or_disjoint {p q : Nat → Bool} :
    ∀ l : List Nat, (∀ a ∈ l, ¬(p a = true ∧ q a = true)) →
      l.countP (fun a => p a || q a) = l.countP p + l.countP q := by
  intro l
  induction l with
  | nil => intro _; rfl
  | cons a l ih =>
    intro h
    rw [List.countP_cons, List.countP_cons, List.countP_cons,
      ih (fun b hb => h b (List.mem_cons_of_mem _ hb))]
    by_cases hp : p a = true
    · have hq : ¬ q a = true := fun hq => h a (List.mem_cons_self _ _) ⟨hp, hq⟩
      simp [hp, hq]
      omega
    · simp only [Bool.not_eq_true] at hp
      simp [hp]
      omega

theorem countP_eq_one_unique (p : Nat → Bool) :
    ∀ l : List Nat, l.Nodup → ∀ j0, j0 ∈ l → p j0 = true →
      (∀ j ∈ l, p j = true → j = j0) → l.countP p = 1 := by
  intro l
  induction l with
  | nil => intro _ j0 hj0; simp at hj0
  | cons a l ih =>
    intro hnd j0 hj0 hp0 huniq
    rw [List.countP_cons]
    rcases List.mem_cons.1 hj0 with h1 | h1
    · subst h1
      have hz : l.countP p = 0 := by
        rw [List.countP_eq_zero]
        intro j hj hpj
        have := huniq j (List.mem_cons_of_mem _ hj) hpj
        subst this
        exact (List.nodup_cons.1 hnd).1 hj
      rw [hz, hp0]
      simp
    · have ha : ¬ p a = true := by
        intro hpa
        have := huniq a (List.mem_cons_self _ _) hpa
        subst this
        exact (List.nodup_cons.1 hnd).1 h1
      rw [ih (List.nodup_cons.1 hnd).2 j0 h1 hp0
        (fun j hj hpj => huniq j (List.mem_cons_of_mem _ hj) hpj)]
      simp [ha]

theorem sum_countP_mem (g : Nat → Option String) :
    ∀ (L : List String), L.Nodup → ∀ (r : List Nat),
      (L.map (fun c => r.countP (fun j => g j = some c))).sum
        = r.countP (fun j => decide (∃ c ∈ L, g j = some c)) := by
  intro L
  induction L with
  | nil =>
    intro _ r
    simp only [List.map_nil, List.sum_nil]
    rw [eq_comm, List.countP_eq_zero]
    intro j _
    simp
  | cons c L ih =>
    intro hnd r
    simp only [List.map_cons, List.sum_cons]
    rw [ih (List.nodup_cons.1 hnd).2 r]
    rw [show r.countP (fun j => decide (∃ x ∈ c :: L, g j = some x))
        = r.countP (fun j => (decide (g j = some c)) || (decide (∃ x ∈ L, g j = some x))) from
      countP_pointwise r (by
        intro a _
        by_cases h1 : g a = some c
        · simp [h1]
        · by_cases h2 : ∃ x ∈ L, g a = some x
          · simp [h1, h2]
          · simp [h1, h2])]
    rw [countP_or_disjoint r (by
      intro a _ ⟨h1, h2⟩
      rw [decide_eq_true_eq] at h1 h2
      rcases h2 with ⟨x, hx, h2⟩
      rw [h1] at h2
      have := Option.some.inj h2
      subst this
      exact (List.nodup_cons.1 hnd).1 hx)]

/-! ### Stable insertion sort: permutation and sortedness -/

theorem insertByKey_perm {α : Type} (key : α → String) (a : α) :
    ∀ l : List α, List.Perm (insertByKey key a l) (a :: l) := by
  intro l
  induction l with
  | nil => simp [insertByKey]
  | cons b l ih =>
    simp only [insertByKey]
    by_cases h : key a ≤ key b
    · rw [if_pos h]
    · rw [if_neg h]
      exact List.Perm.trans (List.Perm.cons b ih) (List.Perm.swap a b l)

theorem sortByKey_perm {α : Type} (key : α → String) :
    ∀ l : List α, List.Perm (sortByKey key l) l := by
  intro l
  induction l with
  | nil => simp [sortByKey]
  | cons a l ih =>
    simp only [sortByKey]
    exact List.Perm.trans (insertByKey_perm key a (sortByKey key l)) (List.Perm.cons a ih)

theorem insertByKey_sorted_cons {α : Type} (key : α → String) (a : α) :
    ∀ (l : List α) (b : α), isSortedByKey key (b :: l) = true → ¬ key a ≤ key b →
      isSortedByKey key (b :: insertByKey key a l) = true := by
  intro l
  induction l with
  | nil =>
    intro b _ hab
    simp [insertByKey, isSortedByKey, le_of_not_le hab]
  | cons c l ih =>
    intro b hs hab
    have hbc : key b ≤ key c := by
      simp only [isSortedByKey, Bool.and_eq_true, decide_eq_true_eq] at hs
      exact hs.1
    have hcl : isSortedByKey key (c :: l) = true := by
      simp only [isSortedByKey, Bool.and_eq_true] at hs
      exact hs.2
    simp only [insertByKey]
    by_cases hac : key a ≤ key c
    · rw [if_pos hac]
      simp only [isSortedByKey, Bool.and_eq_true, decide_eq_true_eq]
      exact ⟨le_of_not_le hab, hac, by
        simpa [isSortedByKey] using hcl⟩
    · rw [if_neg hac]
      have := ih c hcl hac
      simp only [isSortedByKey, Bool.and_eq_true, decide_eq_true_eq] at this ⊢
      exact ⟨hbc, this⟩

theorem insertByKey_sorted {α : Type} (key : α → String) (a : α) :
    ∀ l : List α, isSortedByKey key l = true →
      isSortedByKey key (insertByKey key a l) = true := by
  intro l
  cases l with
  | nil => intro _; rfl
  | cons b l =>
    intro hs
    simp only [insertByKey]
    by_cases h : key a ≤ key b
    · rw [if_pos h]
      simp only [isSortedByKey, Bool.and_eq_true, decide_eq_true_eq]
      exact ⟨h, hs⟩
    · rw [if_neg h]
      exact insertByKey_sorted_cons key a l b hs h

theorem sortByKey_sorted {α : Type} (key : α → String) :
    ∀ l : List α, isSortedByKey key (sortByKey key l) = true := by
  intro l
  induction l with
  | nil => rfl
  | cons a l ih =>
    simp only [sortByKey]
    exact insertByKey_sorted key a _ ih

theorem mkTree_user (users : List GUser) (mm : List (String × Option String))
    (f : Nat) (v : GUser) : (mkTree users mm f v).user = v := by
  cases f <;> rfl

theorem countIdList_map_sum (x : String) (g : GUser → OrgTree) :
    ∀ l : List GUser, countIdList x (l.map g) =
      (l.map (fun c => OrgTree.countId x (g c))).sum := by
  intro l
  induction l with
  | nil => rfl
  | cons c l ih => simp only [List.map_cons, countIdList, List.sum_cons, ih]

theorem childIds_mem (users : List GUser) (mm : List (String × Option String))
    (vid y : String) :
    y ∈ (childrenUsers users mm vid).map GUser.id ↔
      (y ∈ idsOf users ∧ parentIdOf users mm y = some vid) := by
  unfold childrenUsers
  rw [List.Perm.mem_iff ((sortByKey_perm dispKey _).map GUser.id)]
  constructor
  · intro h
    rcases List.mem_map.1 h with ⟨u, hu, hy⟩
    rcases List.mem_filter.1 hu with ⟨hu1, hu2⟩
    subst hy
    refine ⟨List.mem_map.2 ⟨u, hu1, rfl⟩, ?_⟩
    simpa using hu2
  · rintro ⟨h1, h2⟩
    rcases List.mem_map.1 h1 with ⟨u, hu, hy⟩
    subst hy
    exact List.mem_map.2 ⟨u, List.mem_filter.2 ⟨hu, by simpa using h2⟩, rfl⟩

theorem childIds_nodup (users : List GUser) (mm : List (String × Option String))
    (vid : String) (hnd : (idsOf users).Nodup) :
    ((childrenUsers users mm vid).map GUser.id).Nodup := by
  unfold childrenUsers
  rw [List.Perm.nodup_iff ((sortByKey_perm dispKey _).map GUser.id)]
  exact List.Nodup.sublist (List.Sublist.map GUser.id (List.filter_sublist _)) hnd

theorem countId_mkTree (users : List GUser) (mm : List (String × Option String))
    (hnd : (idsOf users).Nodup) (x : String) :
    ∀ (f : Nat) (v : GUser),
      OrgTree.countId x (mkTree users mm f v) =
        (List.range (f + 1)).countP (fun j => ancIter users mm j x = some v.id) := by
  intro f
  induction f with
  | zero =>
    intro v
    have hr : List.range 1 = [0] := rfl
    simp only [mkTree, OrgTree.countId, countIdList, hr, List.countP_cons,
      List.countP_nil, ancIter]
    by_cases hx : v.id = x
    · subst hx; simp
    · have hx' : ¬ x = v.id := fun h => hx h.symm
      simp [hx, hx']
  | succ f ihf =>
    intro v
    simp only [mkTree, OrgTree.countId]
    rw [countIdList_map_sum]
    rw [List.map_congr_left (fun c _ => ihf c)]
    rw [show (childrenUsers users mm v.id).map
          (fun c => (List.range (f + 1)).countP (fun j => ancIter users mm j x = some c.id))
        = ((childrenUsers users mm v.id).map GUser.id).map
          (fun y => (List.range (f + 1)).countP (fun j => ancIter users mm j x = some y)) by
      rw [List.map_map]; rfl]
    rw [sum_countP_mem (fun j => ancIter users mm j x) _
      (childIds_nodup users mm v.id hnd) _]
    rw [countP_pointwise (List.range (f + 1)) (p := fun j =>
        decide (∃ c ∈ (childrenUsers users mm v.id).map GUser.id,
          ancIter users mm j x = some c))
      (q := fun j => decide (ancIter users mm (j + 1) x = some v.id)) ?_]
    · conv_rhs => rw [List.range_succ_eq_map, List.countP_cons, List.countP_map]
      have h0 : (decide (ancIter users mm 0 x = some v.id)) = (decide (v.id = x)) := by
        simp only [ancIter]
        by_cases hx : v.id = x
        · subst hx; simp
        · have hx' : ¬ x = v.id := fun h => hx h.symm
          simp [hx, hx']
      rw [h0]
      have hcp : (List.range (f + 1)).countP
            ((fun j => decide (ancIter users mm j x = some v.id)) ∘ Nat.succ)
          = (List.range (f + 1)).countP
            (fun j => decide (ancIter users mm (j + 1) x = some v.id)) := rfl
      rw [hcp]
      by_cases hx : v.id = x <;> simp [hx] <;> omega
    · intro j _
      show decide (∃ c ∈ (childrenUsers users mm v.id).map GUser.id,
          ancIter users mm j x = some c) = decide (ancIter users mm (j + 1) x = some v.id)
      rw [decide_eq_decide]
      constructor
      · rintro ⟨c, hc, hjc⟩
        rcases (childIds_mem users mm v.id c).1 hc with ⟨_, hp⟩
        rw [ancIter_succ, hjc]; exact hp
      · intro h
        rw [ancIter_succ] at h
        rcases Option.bind_eq_some.1 h with ⟨z, hz, hpz⟩
        exact ⟨z, (childIds_mem users mm v.id z).2
          ⟨parentIdOf_dom_mem users mm z v.id hpz, hpz⟩, hz⟩

theorem rootIds_mem (users : List GUser) (mm : List (String × Option String)) (y : String) :
    y ∈ (rootsOf users mm).map GUser.id ↔
      (y ∈ idsOf users ∧ parentIdOf users mm y = none) := by
  unfold rootsOf
  constructor
  · intro h
    rcases List.mem_map.1 h with ⟨u, hu, hy⟩
    rcases List.mem_filter.1 hu with ⟨hu1, hu2⟩
    subst hy
    exact ⟨List.mem_map.2 ⟨u, hu1, rfl⟩, by simpa using hu2⟩
  · rintro ⟨h1, h2⟩
    rcases List.mem_map.1 h1 with ⟨u, hu, hy⟩
    subst hy
    exact List.mem_map.2 ⟨u, List.mem_filter.2 ⟨hu, by simpa using h2⟩, rfl⟩

theorem rootIds_nodup (users : List GUser) (mm : List (String × Option String))
    (hnd : (idsOf users).Nodup) : ((rootsOf users mm).map GUser.id).Nodup :=
  List.Nodup.sublist (List.Sublist.map GUser.id (List.filter_sublist _)) hnd

theorem allSortedList_map (g : GUser → OrgTree) :
    ∀ l : List GUser, (∀ c ∈ l, (g c).allSorted = true) →
      allSortedList (l.map g) = true := by
  intro l
  induction l with
  | nil => intro _; rfl
  | cons c l ih =>
    intro h
    simp only [List.map_cons, allSortedList, Bool.and_eq_true]
    exact ⟨h c (List.mem_cons_self _ _), ih (fun d hd => h d (List.mem_cons_of_mem _ hd))⟩

theorem mkTree_allSorted (users : List GUser) (mm : List (String × Option String)) :
    ∀ (f : Nat) (v : GUser), (mkTree users mm f v).allSorted = true := by
  intro f
  induction f with
  | zero => intro v; rfl
  | succ f ihf =>
    intro v
    simp only [mkTree, OrgTree.allSorted, Bool.and_eq_true]
    constructor
    · rw [List.map_map]
      rw [show (OrgTree.user ∘ mkTree users mm f) = id from
        funext (fun c => mkTree_user users mm f c)]
      rw [List.map_id]
      unfold childrenUsers
      exact sortByKey_sorted dispKey _
    · exact allSortedList_map _ _ (fun c _ => ihf c)

/-- C3 as amended: provided that user ids are pairwise distinct and
non-empty and that the manager relation restricted to the loaded users
is acyclic (every parent chain leaves the set within `|users|` steps),
`build_hierarchy` returns a forest in which every user appears exactly
once, whose roots are exactly the users whose managerId is null or not
the id of a loaded user, and in which every node's `reports` are sorted
by lowercased display name.  (On a cyclic manager map the forest loses
the users on cycles — see the counterexample.) -/
theorem claim_C3_amended (users : List GUser) (mm : List (String × Option String))
    (hnd : (idsOf users).Nodup)
    (hne : ∀ u ∈ users, u.id ≠ "")
    (hterm : ∀ u ∈ users, ancIter users mm users.length u.id = none) :
    (∀ u ∈ users, countIdList u.id (build_hierarchy users mm) = 1) ∧
    (rootsOf users mm = users.filter (fun u =>
      match mgrIdOf mm u.id with
      | none => true
      | some m => decide (¬ m ∈ idsOf users))) ∧
    allSortedList (build_hierarchy users mm) = true := by
  have hempty : "" ∉ idsOf users := by
    intro h
    rcases List.mem_map.1 h with ⟨u, hu, hid⟩
    exact hne u hu hid
  refine ⟨?_, ?_, ?_⟩
  · -- every user appears exactly once
    intro u hu
    set x := u.id with hx
    set n := users.length with hn
    unfold build_hierarchy
    rw [countIdList_map_sum]
    rw [List.map_congr_left (fun c _ => countId_mkTree users mm hnd x n c)]
    rw [show (rootsOf users mm).map
          (fun c => (List.range (n + 1)).countP (fun j => ancIter users mm j x = some c.id))
        = ((rootsOf users mm).map GUser.id).map
          (fun y => (List.range (n + 1)).countP (fun j => ancIter users mm j x = some y)) by
      rw [List.map_map]; rfl]
    rw [sum_countP_mem (fun j => ancIter users mm j x) _ (rootIds_nodup users mm hnd) _]
    -- the parent chain from x terminates; its last link is the unique root hit
    have hex : ∃ j, ancIter users mm j x = none := ⟨n, hterm u hu⟩
    set k := Nat.find hex with hk
    have hkspec : ancIter users mm k x = none := Nat.find_spec hex
    have hk1 : 1 ≤ k := by
      rcases Nat.eq_zero_or_pos k with h0 | h1
      · exfalso
        rw [h0] at hkspec
        simp [ancIter] at hkspec
      · exact h1
    have hkle : k ≤ n := Nat.find_min' hex (hterm u hu)
    have hprev : ∃ y, ancIter users mm (k - 1) x = some y := by
      have hlt : k - 1 < k := by omega
      have := Nat.find_min hex hlt
      cases hy : ancIter users mm (k - 1) x with
      | none => exact absurd hy this
      | some y => exact ⟨y, rfl⟩
    rcases hprev with ⟨y, hy⟩
    have hPy : parentIdOf users mm y = none := by
      have hsk : ancIter users mm ((k - 1) + 1) x = none := by
        rw [show (k - 1) + 1 = k from by omega]
        exact hkspec
      rw [ancIter_succ, hy] at hsk
      exact hsk
    have hyids : y ∈ idsOf users := by
      rcases Nat.eq_zero_or_pos (k - 1) with h0 | h1
      · rw [h0] at hy
        simp only [ancIter] at hy
        have : x = y := Option.some.inj hy
        subst this
        exact List.mem_map.2 ⟨u, hu, rfl⟩
      · have : k - 1 = (k - 2) + 1 := by omega
        rw [this, ancIter_succ] at hy
        rcases Option.bind_eq_some.1 hy with ⟨z, _, hpz⟩
        exact parentIdOf_target_mem users mm z y hpz
    refine countP_eq_one_unique _ (List.range (n + 1)) (List.nodup_range _) (k - 1)
      (List.mem_range.2 (by omega)) ?_ ?_
    · rw [decide_eq_true_eq]
      exact ⟨y, (rootIds_mem users mm y).2 ⟨hyids, hPy⟩, hy⟩
    · intro j _ hj
      rw [decide_eq_true_eq] at hj
      rcases hj with ⟨c, hc, hjc⟩
      rcases (rootIds_mem users mm c).1 hc with ⟨_, hPc⟩
      have hnext : ancIter users mm (j + 1) x = none := by
        rw [ancIter_succ, hjc]
        exact hPc
      have hkj : k ≤ j + 1 := Nat.find_min' hex hnext
      have hjk : j < k := by
        by_contra hge
        push_neg at hge
        have := ancIter_none_mono users mm x k j hge hkspec
        rw [this] at hjc
        cases hjc
      omega
  · -- roots are exactly the claim-side root set
    unfold rootsOf
    refine List.filter_congr ?_
    intro u hu
    have huid : u.id ∈ idsOf users := List.mem_map.2 ⟨u, hu, rfl⟩
    unfold parentIdOf
    rw [if_pos huid]
    cases hmg : mgrIdOf mm u.id with
    | none => simp
    | some m =>
      dsimp only
      by_cases hm : m ∈ idsOf users
      · have hmne : m ≠ "" := by
          intro he
          subst he
          exact hempty hm
        rw [if_pos ⟨hmne, hm⟩]
        simp [hm]
      · rw [if_neg (by
          rintro ⟨_, hmm⟩
          exact hm hmm)]
        simp [hm]
  · exact allSortedList_map _ _ (fun c _ => mkTree_allSorted users mm users.length c)

/-- Witness for C3 as amended on a three-user forest with two reports
under one root. -/
theorem claim_C3_amended_witness :
    ((idsOf [⟨"a", some "Bob"⟩, ⟨"b", some "Alice"⟩, ⟨"c", none⟩]).Nodup) ∧
    (∀ u ∈ [(⟨"a", some "Bob"⟩ : GUser), ⟨"b", some "Alice"⟩, ⟨"c", none⟩], u.id ≠ "") ∧
    (∀ u ∈ [(⟨"a", some "Bob"⟩ : GUser), ⟨"b", some "Alice"⟩, ⟨"c", none⟩],
      ancIter [⟨"a", some "Bob"⟩, ⟨"b", some "Alice"⟩, ⟨"c", none⟩]
        [("a", some "c"), ("b", some "c")] 3 u.id = none) ∧
    countIdList "a" (build_hierarchy [⟨"a", some "Bob"⟩, ⟨"b", some "Alice"⟩, ⟨"c", none⟩]
      [("a", some "c"), ("b", some "c")]) = 1 :=
  ⟨by decide, by decide, by decide,
    (claim_C3_amended [⟨"a", some "Bob"⟩, ⟨"b", some "Alice"⟩, ⟨"c", none⟩]
      [("a", some "c"), ("b", some "c")] (by decide) (by decide) (by decide)).1
      ⟨"a", some "Bob"⟩ (by decide)⟩

/-! ## Claim C2 — idempotence of the upsert pass

Stability and bookkeeping lemmas: how each database helper evolves the
store, and that its outcome persists to every later append-only
extension of the tables it reads. -/

theorem extendsS_setDiv_left (s T : Store) (d : List DW) (h : extendsS s T) :
    extendsS (setDiv s d) T := h

theorem extendsS_setDocs (s T : Store) (docs : List (String × DocRow))
    (h : extendsS s T) : extendsS s (setDocs T docs) := h

theorem WF_setDocs (st : Store) (docs : List (String × DocRow)) (h : st.WF) :
    (setDocs st docs).WF := h

theorem upsertItemsLoop_nil (ext : Ext) (unid : String) (st : Store) :
    upsertItemsLoop ext unid [] st = st := rfl

theorem upsertFileLoop_nil (ext : Ext) (unid : String) (att_map : List (String × Nat))
    (st : Store) : upsertFileLoop ext unid [] att_map st = st := rfl

end SkillSaw
